import Mathlib

/-!
Shallow embedding of the Scheme interpreter in `lisplab.py`
(tokenizer, parser, environment model, evaluator, builtin library),
with theorems checking the specification's claims against it.

Modelling conventions:
* Python `int`/`float` numbers are both modelled as `ℚ` (the spec's numeric
  claims are about exact arithmetic structure, not rounding); Python's
  `1 == 1.0` is reflected by this collapse.
* Python strings that are interpreter values ('#t', '#f', comparison results)
  and strings that are symbols in a parsed tree are the same Python type;
  the embedding keeps them apart by context (`Value.str` vs `SExp.sym`) and
  converts between them exactly where the source moves values into trees.
* Exceptions are explicit: the `SchemeError` subclasses of the source are the
  `synE` / `nameE` / `evalE` constructors, and unclassified Python host
  exceptions (IndexError, ZeroDivisionError, TypeError, AttributeError)
  escaping from the source code are the `host*` constructors.
* Mutable `Frame` objects are a heap: a `State` holds a list of frames and a
  frame refers to its parent by index.  Python exceptions do not roll back
  mutations, so every operation returns the state alongside the result.
* Recursion in `evaluate` is fuel-indexed (`noFuel` plays the role of Python
  hitting its recursion limit); all other recursion is structural.
* Python `==` has no overloads in the source (`Pair` and `Function` fall back
  to object identity).  The embedding's `beqVal` compares pairs and closures
  structurally; no claim verified below applies `==` to pairs or procedures.
-/

/-- Error taxonomy: the three `SchemeError` subclasses, plus the Python host
exceptions that can escape from the source, plus fuel exhaustion. -/
inductive Err where
  | synE       -- SchemeSyntaxError
  | nameE      -- SchemeNameError
  | evalE      -- SchemeEvaluationError
  | hostIndex  -- Python IndexError (unclassified)
  | hostZero   -- Python ZeroDivisionError (unclassified)
  | hostType   -- Python TypeError (unclassified)
  | hostAttr   -- Python AttributeError (unclassified)
  | noFuel     -- recursion limit
deriving DecidableEq

/-- Is this one of the `SchemeError` subclasses (the language's own taxonomy)? -/
def Err.isSchemeError : Err → Bool
  | .synE => true
  | .nameE => true
  | .evalE => true
  | _ => false

/-- Names of the callable entries of `scheme_builtins`. -/
inductive BName where
  | add | sub | mul | div | eqp | gt | ge | lt | le | notp
  | car | cdr | listp | len | listRef | append | begin
deriving DecidableEq, BEq

mutual
/-- Parsed expressions, as produced by `parse`: numbers, symbol strings and
Python lists.  `raw` embeds a runtime value placed into a tree by `append`
(possible for values that have no tree form: closures, builtins, None);
number, string and empty-list values placed into trees are indistinguishable
from number/symbol/empty-compound trees in Python and are embedded as such. -/
inductive SExp where
  | num (q : ℚ)
  | sym (s : String)
  | list (xs : List SExp)
  | raw (v : Value)

/-- Runtime values: numbers, Python strings ('#t', '#f', ...), the empty list
`[]` (`nil`), cons `Pair`s, user `Function` objects (closure: raw parameter
tree, body tree, defining frame index), builtin procedures, and Python `None`
(returned when `evaluate` falls off the end on a non-str/num/list tree). -/
inductive Value where
  | num (q : ℚ)
  | str (s : String)
  | vnil
  | pair (car cdr : Value)
  | closure (params body : SExp) (frame : Nat)
  | builtin (b : BName)
  | pynone
end

mutual
/-- Python `==` on parsed-tree components (str/int/float/list compare by
content; cross-type comparison is `False`, never an error). -/
def beqExp : SExp → SExp → Bool
  | .num a, .num b => decide (a = b)
  | .sym a, .sym b => a == b
  | .list xs, .list ys => beqExpList xs ys
  | .raw v, .raw w => beqVal v w
  | _, _ => false

/-- Python `==` on lists: same length and pointwise equal. -/
def beqExpList : List SExp → List SExp → Bool
  | [], [] => true
  | x :: xs, y :: ys => beqExp x y && beqExpList xs ys
  | _, _ => false

/-- Python `==` on runtime values.  `Pair` and `Function` define no `__eq__`
in the source; see the header note on the structural modelling choice. -/
def beqVal : Value → Value → Bool
  | .num a, .num b => decide (a = b)
  | .str a, .str b => a == b
  | .vnil, .vnil => true
  | .pair a b, .pair c d => beqVal a c && beqVal b d
  | .closure p b i, .closure q c j => beqExp p q && beqExp b c && i == j
  | .builtin a, .builtin b => a == b
  | .pynone, .pynone => true
  | _, _ => false
end

/-- Python `tree[k]` on a list: the element, or IndexError. -/
def idxE : List SExp → Nat → Except Err SExp
  | [], _ => .error .hostIndex
  | x :: _, 0 => .ok x
  | _ :: xs, n+1 => idxE xs n

/-- Python `value[k]` on an arbitrary tree component (used by `let`):
lists index normally, strings index to one-character strings, and
numbers / raw values are not subscriptable (TypeError). -/
def pyIdx : SExp → Nat → Except Err SExp
  | .list xs, n => idxE xs n
  | .sym s, n =>
      match s.toList.get? n with
      | some c => .ok (.sym (String.mk [c]))
      | none => .error .hostIndex
  | _, _ => .error .hostType

/-- Python `len` on a tree component (`len(func.params)` in application):
lists and strings have a length; other values raise TypeError. -/
def pyLen : SExp → Except Err Nat
  | .list xs => .ok xs.length
  | .sym s => .ok s.toList.length
  | _ => .error .hostType

/-- Iterating a parameter tree in `zip(inputs, params)`: lists yield their
elements, strings yield one-character strings.  (Other shapes already fail
at `len(params)`.) -/
def paramKeys : SExp → List SExp
  | .list xs => xs
  | .sym s => s.toList.map (fun c => .sym (String.mk [c]))
  | _ => []

/-- `arg in booleans` on an unevaluated tree component (`if`/`and`/`or`). -/
def asBoolLit (t : SExp) : Bool :=
  beqExp t (.sym "#t") || beqExp t (.sym "#f")

/-- The value returned when a literal boolean token is returned unevaluated
(`return tree[2]` in the `if` branch): the token string itself. -/
def boolStr (t : SExp) : Value :=
  .str (if beqExp t (.sym "#t") then "#t" else "#f")

/-! ## Environment frames -/

/-- One `Frame`: a dict from (hashable) tree keys to values, insertion
ordered, plus an optional parent frame reference. -/
structure FrameR where
  vars : List (SExp × Value)
  parent : Option Nat

/-- The heap of frames (frame identity = index; parents are shared
references). -/
structure State where
  frames : List FrameR

/-- Would using this tree component as a dict key raise TypeError
(Python lists are unhashable)? -/
def unhashable : SExp → Bool
  | .list _ => true
  | _ => false

/-- Dict update: overwrite the existing entry in place, else append. -/
def updateAssoc : List (SExp × Value) → SExp → Value → List (SExp × Value)
  | [], k, v => [(k, v)]
  | (k', v') :: rest, k, v =>
      if beqExp k' k then (k', v) :: rest else (k', v') :: updateAssoc rest k v

/-- Dict lookup by Python `==` on keys. -/
def lookupAssoc : List (SExp × Value) → SExp → Option Value
  | [], _ => none
  | (k', v') :: rest, k => if beqExp k' k then some v' else lookupAssoc rest k

/-- Dict deletion (`del d[k]`), preserving the order of other entries. -/
def removeAssoc : List (SExp × Value) → SExp → List (SExp × Value)
  | [], _ => []
  | (k', v') :: rest, k =>
      if beqExp k' k then rest else (k', v') :: removeAssoc rest k

/-- `Frame(parent)`: allocate a fresh empty frame, returning its index. -/
def allocFrame (σ : State) (parent : Option Nat) : Nat × State :=
  (σ.frames.length, ⟨σ.frames ++ [⟨[], parent⟩]⟩)

/-- What a frame of the heap binds a key to. -/
def frameLookup (σ : State) (i : Nat) (key : SExp) : Option Value :=
  match σ.frames.get? i with
  | some fr => lookupAssoc fr.vars key
  | none => none

/-- `Frame.define_var`: bind `key` in frame `i` and return the value
(TypeError on an unhashable key). -/
def defineVarIn (σ : State) (i : Nat) (key : SExp) (v : Value) :
    Except Err Value × State :=
  if unhashable key then (.error .hostType, σ)
  else
    match σ.frames.get? i with
    | none => (.error .hostIndex, σ)
    | some fr =>
        (.ok v, ⟨σ.frames.set i ⟨updateAssoc fr.vars key v, fr.parent⟩⟩)

/-- `Frame.search_frames`: the value bound in the nearest enclosing frame, or
SchemeNameError.  (The source's reassign-`self`-and-return loop is exactly a
recursive walk up the parent chain; fuel bounds the walk, `noFuel` standing
for a non-terminating cyclic chain, which reachable states never have.) -/
def searchFrames (σ : State) : Nat → Nat → SExp → Except Err Value
  | 0, _, _ => .error .noFuel
  | fuel+1, i, key =>
      if unhashable key then .error .hostType
      else
        match σ.frames.get? i with
        | none => .error .hostIndex
        | some fr =>
            match lookupAssoc fr.vars key with
            | some v => .ok v
            | none =>
                match fr.parent with
                | some p => searchFrames σ fuel p key
                | none => .error .nameE

/-- `Frame.find_nearest`: the nearest enclosing frame that defines `key`, or
SchemeNameError; same loop structure as `search_frames`. -/
def findNearest (σ : State) : Nat → Nat → SExp → Except Err Nat
  | 0, _, _ => .error .noFuel
  | fuel+1, i, key =>
      if unhashable key then .error .hostType
      else
        match σ.frames.get? i with
        | none => .error .hostIndex
        | some fr =>
            match lookupAssoc fr.vars key with
            | some _ => .ok i
            | none =>
                match fr.parent with
                | some p => findNearest σ fuel p key
                | none => .error .nameE

/-- `Frame.delete`: remove a binding of the current frame only, returning the
prior value, or SchemeNameError. -/
def deleteVar (σ : State) (i : Nat) (key : SExp) : Except Err Value × State :=
  if unhashable key then (.error .hostType, σ)
  else
    match σ.frames.get? i with
    | none => (.error .hostIndex, σ)
    | some fr =>
        match lookupAssoc fr.vars key with
        | some v => (.ok v, ⟨σ.frames.set i ⟨removeAssoc fr.vars key, fr.parent⟩⟩)
        | none => (.error .nameE, σ)

/-- `valid_name`: ASCII and free of parentheses and of the space character
(the source checks `' '`, not other whitespace). -/
def validName (s : String) : Bool :=
  s.toList.all (fun c => c.toNat < 128) &&
    !s.toList.contains '(' && !s.toList.contains ')' && !s.toList.contains ' '

/-! ## Builtin procedures (the pure ones) -/

/-- Python `+` on values (used through `sum`): numbers add; anything else
that `sum` meets raises TypeError. -/
def pyAdd : Value → Value → Except Err Value
  | .num a, .num b => .ok (.num (a + b))
  | _, _ => .error .hostType

/-- Python `sum(args)`: fold `+` over the list starting from `0`. -/
def sumB (vs : List Value) : Except Err Value :=
  vs.foldlM pyAdd (.num 0)

/-- Python unary `-`. -/
def pyNeg : Value → Except Err Value
  | .num a => .ok (.num (-a))
  | _ => .error .hostType

/-- Python binary `-`. -/
def pySub : Value → Value → Except Err Value
  | .num a, .num b => .ok (.num (a - b))
  | _, _ => .error .hostType

/-- `n` copies of `s` (Python `str * int`; non-positive count gives ""). -/
def strRepeat (s : String) (n : Int) : String :=
  String.join (List.replicate n.toNat s)

/-- Python `*` on values: numbers multiply; `str * int` repeats (the model
cannot see the int/float distinction inside `ℚ`, so integral values are
treated as ints there); everything else raises TypeError. -/
def pyMul : Value → Value → Except Err Value
  | .num a, .num b => .ok (.num (a * b))
  | .str s, .num b => if b.den = 1 then .ok (.str (strRepeat s b.num)) else .error .hostType
  | .num a, .str s => if a.den = 1 then .ok (.str (strRepeat s a.num)) else .error .hostType
  | _, _ => .error .hostType

/-- The `-` builtin: IndexError on no arguments (`args[0]` in the else arm),
unary negation on one, else first minus the sum of the rest. -/
def subB : List Value → Except Err Value
  | [] => .error .hostIndex
  | [v] => pyNeg v
  | a :: rest => do
      let s ← sumB rest
      pySub a s

/-- The `*` builtin: `1 if not args else args[0] * mul(args[1:])`. -/
def mulB : List Value → Except Err Value
  | [] => .ok (.num 1)
  | v :: rest => do
      let p ← mulB rest
      pyMul v p

/-- The unary arm of the `/` builtin: `1 / args[0]` (true division;
ZeroDivisionError on zero, TypeError on a non-number). -/
def divOne : Value → Except Err Value
  | .num a => if a = 0 then .error .hostZero else .ok (.num (1 / a))
  | _ => .error .hostType

/-- The `/` builtin: SchemeEvaluationError on no arguments (the generator
`throw` trick); reciprocal on one; else
`args[0] * mul([div([arg]) for arg in args[1:]])`. -/
def divB (args : List Value) : Except Err Value :=
  match args with
  | [] => .error .evalE
  | [v] => divOne v
  | a :: rest => do
      let recips ← rest.mapM divOne
      let p ← mulB recips
      pyMul a p

/-- Python `>` on values: numbers numerically, strings lexicographically,
anything else TypeError. -/
def pyGt : Value → Value → Except Err Bool
  | .num a, .num b => .ok (decide (b < a))
  | .str a, .str b => .ok (decide (b < a))
  | _, _ => .error .hostType

/-- Python `>=`. -/
def pyGe : Value → Value → Except Err Bool
  | .num a, .num b => .ok (decide (b ≤ a))
  | .str a, .str b => .ok (decide (b ≤ a))
  | _, _ => .error .hostType

/-- Python `<`. -/
def pyLt : Value → Value → Except Err Bool
  | .num a, .num b => .ok (decide (a < b))
  | .str a, .str b => .ok (decide (a < b))
  | _, _ => .error .hostType

/-- Python `<=`. -/
def pyLe : Value → Value → Except Err Bool
  | .num a, .num b => .ok (decide (a ≤ b))
  | .str a, .str b => .ok (decide (a ≤ b))
  | _, _ => .error .hostType

/-- `all(rel(args[i], args[i+1]) for i in range(len(args)-1))`, short-circuit,
then mapped to the boolean literal strings. -/
def chainRel (r : Value → Value → Except Err Bool) : List Value → Except Err Value
  | [] => .ok (.str "#t")
  | [_] => .ok (.str "#t")
  | a :: b :: rest =>
      match r a b with
      | .error e => .error e
      | .ok false => .ok (.str "#f")
      | .ok true => chainRel r (b :: rest)

/-- The `not` builtin: exactly one argument (SchemeEvaluationError otherwise,
via the generator `throw` trick); '#t' iff the argument is '#f'. -/
def notB : List Value → Except Err Value
  | [v] => .ok (if beqVal v (.str "#f") then .str "#t" else .str "#f")
  | _ => .error .evalE

/-- The `car` builtin: exactly one argument which must be a `Pair`. -/
def carB : List Value → Except Err Value
  | [.pair c _] => .ok c
  | _ => .error .evalE

/-- The `cdr` builtin: exactly one argument which must be a `Pair`. -/
def cdrB : List Value → Except Err Value
  | [.pair _ d] => .ok d
  | _ => .error .evalE

/-- `is_list` on one value: '#t' on the empty list, '#f' on a non-`Pair`,
else recurse on the `cdr`. -/
def isListV : Value → Value
  | .vnil => .str "#t"
  | .pair _ d => isListV d
  | _ => .str "#f"

/-- The `list?` builtin (`is_list(obj)` reads `obj[0]`: IndexError when
called with no arguments; extra arguments are ignored). -/
def isListB : List Value → Except Err Value
  | [] => .error .hostIndex
  | v :: _ => .ok (isListV v)

/-- `length` on one value: 0 on the empty list, SchemeEvaluationError on a
non-`Pair`, else one more than the length of the `cdr`. -/
def lengthV : Value → Except Err Nat
  | .vnil => .ok 0
  | .pair _ d => do
      let n ← lengthV d
      .ok (n + 1)
  | _ => .error .evalE

/-- The `length` builtin (`dalist[0]`: IndexError when called with no
arguments; extra arguments are ignored). -/
def lengthB : List Value → Except Err Value
  | [] => .error .hostIndex
  | v :: _ => do
      let n ← lengthV v
      .ok (.num n)

/-- The recursive core of `list_ref`: a non-`Pair` cannot be indexed
(SchemeEvaluationError); index `== 0` takes the `car`; otherwise recurse on
the `cdr` with `ind - 1` (TypeError if the index cannot be decremented). -/
def listRefV : Value → Value → Except Err Value
  | .pair c d, ind =>
      if beqVal ind (.num 0) then .ok c
      else
        match pySub ind (.num 1) with
        | .error e => .error e
        | .ok ind' => listRefV d ind'
  | _, _ => .error .evalE

/-- The `list-ref` builtin.  The guard rejects zero or more than two
arguments; a single argument slips past it and `arg[1]` raises a host
IndexError (not a SchemeError). -/
def listRefB (args : List Value) : Except Err Value :=
  if args.isEmpty || decide (args.length > 2) then .error .evalE
  else
    match args with
    | [dalist, ind] => listRefV dalist ind
    | _ => .error .hostIndex

/-- The `begin` builtin: `args[-1]` (IndexError on no arguments). -/
def beginB : List Value → Except Err Value
  | vs =>
      match vs.getLast? with
      | some v => .ok v
      | none => .error .hostIndex

/-- Is this value the empty list `[]`? -/
def isNilV : Value → Bool
  | .vnil => true
  | _ => false

/-- Placing a value into a tree, as `append` does: a `Pair` becomes its
`astokens()` form `['cons', car, cdr]` (with an empty-list `cdr` replaced by
the symbol `nil`); numbers, strings and the empty list are the corresponding
tree atoms (they are the same Python objects); closures, builtins and None
have no tree form and stay raw. -/
def valToExp : Value → SExp
  | .num q => .num q
  | .str s => .sym s
  | .vnil => .list []
  | .pair c d =>
      .list [.sym "cons", valToExp c,
             if isNilV d then .sym "nil" else valToExp d]
  | .closure p b i => .raw (.closure p b i)
  | .builtin b => .raw (.builtin b)
  | .pynone => .raw .pynone

/-- `[list_ref([dalist, i]) for i in range(stop)]`. -/
def refRange (l : Value) (stop : Nat) : Except Err (List Value) :=
  (List.range stop).mapM (fun k => listRefB [l, .num k])

/-- The element-collection loop of `append`: for each list, walk its elements
with `length`/`list_ref` and extend `concat`. -/
def buildConcat : List Value → Except Err (List SExp)
  | [] => .ok []
  | l :: ls => do
      let stop ← lengthV l
      let vs ← refRange l stop
      let rest ← buildConcat ls
      .ok (vs.map valToExp ++ rest)

/-- Dispatch for the builtins that do not re-enter `evaluate`
(`append` is handled in `applyBuiltin`). -/
def pureApply : BName → List Value → Except Err Value
  | .add, vs => sumB vs
  | .sub, vs => subB vs
  | .mul, vs => mulB vs
  | .div, vs => divB vs
  | .eqp, vs => chainRel (fun a b => .ok (beqVal a b)) vs
  | .gt, vs => chainRel pyGt vs
  | .ge, vs => chainRel pyGe vs
  | .lt, vs => chainRel pyLt vs
  | .le, vs => chainRel pyLe vs
  | .notp, vs => notB vs
  | .car, vs => carB vs
  | .cdr, vs => cdrB vs
  | .listp, vs => isListB vs
  | .len, vs => lengthB vs
  | .listRef, vs => listRefB vs
  | .begin, vs => beginB vs
  | .append, _ => .error .evalE

/-- The entries of `scheme_builtins`, in the source's insertion order
('#t', '#f' and 'nil' are plain values, not procedures). -/
def builtinsVars : List (SExp × Value) :=
  [(.sym "+", .builtin .add), (.sym "-", .builtin .sub),
   (.sym "*", .builtin .mul), (.sym "/", .builtin .div),
   (.sym "equal?", .builtin .eqp), (.sym ">", .builtin .gt),
   (.sym ">=", .builtin .ge), (.sym "<", .builtin .lt),
   (.sym "<=", .builtin .le), (.sym "not", .builtin .notp),
   (.sym "#t", .str "#t"), (.sym "#f", .str "#f"),
   (.sym "car", .builtin .car), (.sym "cdr", .builtin .cdr),
   (.sym "nil", .vnil), (.sym "list?", .builtin .listp),
   (.sym "length", .builtin .len), (.sym "list-ref", .builtin .listRef),
   (.sym "append", .builtin .append), (.sym "begin", .builtin .begin)]

/-- The interpreter's initial heap: just the global `builtins` frame, which
is always frame 0. -/
def initState : State := ⟨[⟨builtinsVars, none⟩]⟩

/-- Binding a list of key/value pairs into frame `i` with successive
`define_var` calls (`zip` loops in `let` and closure application). -/
def bindList (σ : State) (i : Nat) : List (SExp × Value) → Except Err Unit × State
  | [] => (.ok (), σ)
  | (k, v) :: rest =>
      match defineVarIn σ i k v with
      | (.error e, σ') => (.error e, σ')
      | (.ok _, σ') => bindList σ' i rest


/-! ## The evaluator

`evalIn fuel tree i σ` is `evaluate(tree, frame_i)` with `fuel` bounding the
remaining evaluation depth.  The body of each `elif` arm of the source's
dispatch is split into its own definition (`evalSet`, `evalIf`, ...); each
consumes one fuel level on entry, and every direct sub-evaluation of the
source runs one level lower again, so fuel only ever bounds depth.  The
source's final `print(...); raise SchemeEvaluationError` is reached by every
branch that falls through without returning (the empty compound expression, a
malformed `cons`, an invalid plain `define` name, a closure arity mismatch
and application of a non-callable); the `print` is ignored by the model.
`evaluate fuel tree env σ` is the public entry point, allocating a fresh
child of the global frame when `env` is `None`. -/

/-- The `lambda` arm: capture the raw parameter tree, the body tree and the
current frame, without evaluating anything. -/
def evalLambda (rest : List SExp) (i : Nat) (σ : State) : Except Err Value × State :=
  match idxE rest 0 with
  | .error e => (.error e, σ)
  | .ok ps =>
    match idxE rest 1 with
    | .error e => (.error e, σ)
    | .ok body => (.ok (.closure ps body i), σ)

mutual

def evalIn : Nat → SExp → Nat → State → Except Err Value × State
  | 0, _, _, σ => (.error .noFuel, σ)
  | _+1, .sym s, i, σ => (searchFrames σ (σ.frames.length + 1) i (.sym s), σ)
  | _+1, .num q, _, σ => (.ok (.num q), σ)
  | _+1, .raw _, _, σ => (.ok .pynone, σ)
  | fuel+1, .list tree, i, σ =>
    match tree with
    | [] => (.error .evalE, σ)
    | head :: rest =>
      -- the source's `elif tree[0] == '...'` chain (`==`, not pattern match)
      if beqExp head (.sym "set!") then evalSet fuel rest i σ
      else if beqExp head (.sym "let") then evalLet fuel rest i σ
      else if beqExp head (.sym "del") then evalDel rest i σ
      else if beqExp head (.sym "list") then evalListForm fuel rest i σ
      else if beqExp head (.sym "cons") then evalCons fuel rest i σ
      else if beqExp head (.sym "if") then evalIf fuel rest i σ
      else if beqExp head (.sym "and") then andLoop fuel rest i σ
      else if beqExp head (.sym "or") then orLoop fuel rest i σ
      else if beqExp head (.sym "define") then evalDefine fuel rest i σ
      else if beqExp head (.sym "lambda") then evalLambda rest i σ
      else evalApp fuel head rest i σ
termination_by structural fuel _ _ _ => fuel

/-- `set!`: read the target, evaluate the value expression in the current
environment, rebind in the nearest frame already defining the target. -/
def evalSet : Nat → List SExp → Nat → State → Except Err Value × State
  | 0, _, _, σ => (.error .noFuel, σ)
  | fuel+1, rest, i, σ =>
    match idxE rest 0 with
    | .error e => (.error e, σ)
    | .ok var =>
      match idxE rest 1 with
      | .error e => (.error e, σ)
      | .ok vexpr =>
        match evalIn fuel vexpr i σ with
        | (.error e, σ') => (.error e, σ')
        | (.ok v, σ') =>
          match findNearest σ' (σ'.frames.length + 1) i var with
          | .error e => (.error e, σ')
          | .ok j => defineVarIn σ' j var v
termination_by structural fuel _ _ _ => fuel

/-- `let`: collect the names, evaluate every value expression in the current
environment, then bind all of them in one fresh child frame and evaluate the
body there. -/
def evalLet : Nat → List SExp → Nat → State → Except Err Value × State
  | 0, _, _, σ => (.error .noFuel, σ)
  | fuel+1, rest, i, σ =>
    match idxE rest 0 with
    | .error e => (.error e, σ)
    | .ok binds =>
      match binds with
      | .list pairs =>
        match pairs.mapM (fun p => pyIdx p 0) with
        | .error e => (.error e, σ)
        | .ok names =>
          match letVals fuel pairs i σ with
          | (.error e, σ') => (.error e, σ')
          | (.ok vals, σ') =>
            let (nid, σ'') := allocFrame σ' (some i)
            match bindList σ'' nid (names.zip vals) with
            | (.error e, σ3) => (.error e, σ3)
            | (.ok _, σ3) =>
              match idxE rest 1 with
              | .error e => (.error e, σ3)
              | .ok body => evalIn fuel body nid σ3
      | .sym s =>
        -- iterating a string: `[c[0] for c in s]` succeeds on one-character
        -- strings, then `[evaluate(c[1], ...) for c in s]` raises IndexError
        -- at the first character; an empty string gives no bindings at all
        if s.isEmpty then
          let (nid, σ'') := allocFrame σ (some i)
          match idxE rest 1 with
          | .error e => (.error e, σ'')
          | .ok body => evalIn fuel body nid σ''
        else (.error .hostIndex, σ)
      | _ => (.error .hostType, σ)  -- iterating an int / Function / None
termination_by structural fuel _ _ _ => fuel

/-- `cons`: exactly two sub-expressions, evaluated left to right, else fall
through to the final raise. -/
def evalCons : Nat → List SExp → Nat → State → Except Err Value × State
  | 0, _, _, σ => (.error .noFuel, σ)
  | fuel+1, rest, i, σ =>
    match rest with
    | [a, b] =>
      match evalIn fuel a i σ with
      | (.error e, σ') => (.error e, σ')
      | (.ok va, σ') =>
        match evalIn fuel b i σ' with
        | (.error e, σ'') => (.error e, σ'')
        | (.ok vb, σ'') => (.ok (.pair va vb), σ'')
    | _ => (.error .evalE, σ)
termination_by structural fuel _ _ _ => fuel

/-- `list`: no elements looks up `nil`; otherwise desugar to
`(cons first (list rest...))` and re-evaluate. -/
def evalListForm : Nat → List SExp → Nat → State → Except Err Value × State
  | 0, _, _, σ => (.error .noFuel, σ)
  | fuel+1, rest, i, σ =>
    match rest with
    | [] => evalIn fuel (.sym "nil") i σ
    | first :: rest2 =>
        evalIn fuel (.list [.sym "cons", first, .list (.sym "list" :: rest2)]) i σ
termination_by structural fuel _ _ _ => fuel

/-- `if`: a literal boolean condition is taken as is, anything else is
evaluated; the then-branch is chosen exactly when the condition is (or
evaluates to) the '#t' value; the chosen branch is returned unevaluated when
it is itself a literal boolean token. -/
def evalIf : Nat → List SExp → Nat → State → Except Err Value × State
  | 0, _, _, σ => (.error .noFuel, σ)
  | fuel+1, rest, i, σ =>
    match idxE rest 0 with
    | .error e => (.error e, σ)
    | .ok c =>
      if asBoolLit c then
        if beqExp c (.sym "#t") then
          match idxE rest 1 with
          | .error e => (.error e, σ)
          | .ok t => if asBoolLit t then (.ok (boolStr t), σ) else evalIn fuel t i σ
        else
          match idxE rest 2 with
          | .error e => (.error e, σ)
          | .ok el => if asBoolLit el then (.ok (boolStr el), σ) else evalIn fuel el i σ
      else
        match evalIn fuel c i σ with
        | (.error e, σ') => (.error e, σ')
        | (.ok v, σ') =>
          if beqVal v (.str "#t") then
            match idxE rest 1 with
            | .error e => (.error e, σ')
            | .ok t => if asBoolLit t then (.ok (boolStr t), σ') else evalIn fuel t i σ'
          else
            match idxE rest 2 with
            | .error e => (.error e, σ')
            | .ok el => if asBoolLit el then (.ok (boolStr el), σ') else evalIn fuel el i σ'
termination_by structural fuel _ _ _ => fuel

/-- `define`: the list form is sugar for a `lambda` definition (with no name
validity check); the symbol form validates the name before evaluating the
value; a non-string name raises AttributeError inside `valid_name`. -/
def evalDefine : Nat → List SExp → Nat → State → Except Err Value × State
  | 0, _, _, σ => (.error .noFuel, σ)
  | fuel+1, rest, i, σ =>
    match idxE rest 0 with
    | .error e => (.error e, σ)
    | .ok t1 =>
      match t1 with
      | .list l1 =>
        match idxE l1 0 with
        | .error e => (.error e, σ)
        | .ok name =>
          match idxE rest 1 with
          | .error e => (.error e, σ)
          | .ok body =>
            match evalIn fuel (.list [.sym "lambda", .list (l1.drop 1), body]) i σ with
            | (.error e, σ') => (.error e, σ')
            | (.ok fn, σ') => defineVarIn σ' i name fn
      | .sym s =>
        if validName s then
          match idxE rest 1 with
          | .error e => (.error e, σ)
          | .ok vexpr =>
            match evalIn fuel vexpr i σ with
            | (.error e, σ') => (.error e, σ')
            | (.ok v, σ') => defineVarIn σ' i (.sym s) v
        else (.error .evalE, σ)  -- invalid name: fall through to the raise
      | _ => (.error .hostAttr, σ)  -- valid_name(non-string): AttributeError
termination_by structural fuel _ _ _ => fuel

/-- Function application: evaluate the operator; a `Function` checks arity,
evaluates the arguments in the caller's environment, binds them in a fresh
child of its defining frame and evaluates its body there; a builtin gets the
evaluated argument values; anything else falls through to the raise. -/
def evalApp : Nat → SExp → List SExp → Nat → State → Except Err Value × State
  | 0, _, _, _, σ => (.error .noFuel, σ)
  | fuel+1, head, rest, i, σ =>
    match evalIn fuel head i σ with
    | (.error e, σ₁) => (.error e, σ₁)
    | (.ok fv, σ₁) =>
      match fv with
      | .closure ps body encf =>
        match pyLen ps with
        | .error e => (.error e, σ₁)
        | .ok np =>
          if rest.length = np then
            match evalArgs fuel rest i σ₁ with
            | (.error e, σ₂) => (.error e, σ₂)
            | (.ok vs, σ₂) =>
              let (nid, σ₃) := allocFrame σ₂ (some encf)
              match bindList σ₃ nid ((paramKeys ps).zip vs) with
              | (.error e, σ₄) => (.error e, σ₄)
              | (.ok _, σ₄) => evalIn fuel body nid σ₄
          else (.error .evalE, σ₁)  -- arity mismatch: fall through to the raise
      | .builtin b =>
        match evalArgs fuel rest i σ₁ with
        | (.error e, σ₂) => (.error e, σ₂)
        | (.ok vs, σ₂) => applyBuiltin fuel b vs σ₂
      | _ => (.error .evalE, σ₁)  -- not callable: fall through to the raise
termination_by structural fuel _ _ _ _ => fuel

/-- `del`: delete from the current frame only. -/
def evalDel (rest : List SExp) (i : Nat) (σ : State) : Except Err Value × State :=
  match idxE rest 0 with
  | .error e => (.error e, σ)
  | .ok key => deleteVar σ i key

/-- The argument-evaluation comprehension of function application. -/
def evalArgs : Nat → List SExp → Nat → State → Except Err (List Value) × State
  | 0, _, _, σ => (.error .noFuel, σ)
  | _+1, [], _, σ => (.ok [], σ)
  | fuel+1, a :: as, i, σ =>
    match evalIn fuel a i σ with
    | (.error e, σ') => (.error e, σ')
    | (.ok v, σ') =>
      match evalArgs fuel as i σ' with
      | (.error e, σ'') => (.error e, σ'')
      | (.ok vs, σ'') => (.ok (v :: vs), σ'')
termination_by structural fuel _ _ _ => fuel

/-- The `and` loop: literal boolean operands are not re-evaluated; stop with
'#f' at the first false operand. -/
def andLoop : Nat → List SExp → Nat → State → Except Err Value × State
  | 0, _, _, σ => (.error .noFuel, σ)
  | _+1, [], _, σ => (.ok (.str "#t"), σ)
  | fuel+1, a :: rest, i, σ =>
    if asBoolLit a then
      if beqExp a (.sym "#f") then (.ok (.str "#f"), σ) else andLoop fuel rest i σ
    else
      match evalIn fuel a i σ with
      | (.error e, σ') => (.error e, σ')
      | (.ok v, σ') =>
          if beqVal v (.str "#f") then (.ok (.str "#f"), σ')
          else andLoop fuel rest i σ'
termination_by structural fuel _ _ _ => fuel

/-- The `or` loop: stop with '#t' at the first true operand. -/
def orLoop : Nat → List SExp → Nat → State → Except Err Value × State
  | 0, _, _, σ => (.error .noFuel, σ)
  | _+1, [], _, σ => (.ok (.str "#f"), σ)
  | fuel+1, a :: rest, i, σ =>
    if asBoolLit a then
      if beqExp a (.sym "#t") then (.ok (.str "#t"), σ) else orLoop fuel rest i σ
    else
      match evalIn fuel a i σ with
      | (.error e, σ') => (.error e, σ')
      | (.ok v, σ') =>
          if beqVal v (.str "#t") then (.ok (.str "#t"), σ')
          else orLoop fuel rest i σ'
termination_by structural fuel _ _ _ => fuel

/-- The value-expression comprehension of `let` (`value[1]` is indexed and
evaluated per element, in the current environment). -/
def letVals : Nat → List SExp → Nat → State → Except Err (List Value) × State
  | 0, _, _, σ => (.error .noFuel, σ)
  | _+1, [], _, σ => (.ok [], σ)
  | fuel+1, p :: ps, i, σ =>
    match pyIdx p 1 with
    | .error e => (.error e, σ)
    | .ok ve =>
      match evalIn fuel ve i σ with
      | (.error e, σ') => (.error e, σ')
      | (.ok v, σ') =>
        match letVals fuel ps i σ' with
        | (.error e, σ'') => (.error e, σ'')
        | (.ok vs, σ'') => (.ok (v :: vs), σ'')
termination_by structural fuel _ _ _ => fuel

/-- `evaluate(tree, eval_frame=None)`: with no environment, evaluate in a
fresh child of the global `builtins` frame. -/
def evaluate : Nat → SExp → Option Nat → State → Except Err Value × State
  | 0, _, _, σ => (.error .noFuel, σ)
  | fuel+1, tree, some i, σ => evalIn fuel tree i σ
  | fuel+1, tree, none, σ =>
      let (i, σ') := allocFrame σ (some 0)
      evalIn fuel tree i σ'
termination_by structural fuel _ _ _ => fuel

/-- Builtin dispatch; `append` is the one builtin that re-enters `evaluate`. -/
def applyBuiltin : Nat → BName → List Value → State → Except Err Value × State
  | 0, _, _, σ => (.error .noFuel, σ)
  | fuel+1, b, args, σ =>
    match b with
    | .append => appendB fuel args σ
    | _ => (pureApply b args, σ)
termination_by structural fuel _ _ _ => fuel

/-- The `append` builtin: check every argument is a proper list, re-collect
all their elements as a `['list', ...]` tree and evaluate that tree in a
fresh environment. -/
def appendB : Nat → List Value → State → Except Err Value × State
  | 0, _, σ => (.error .noFuel, σ)
  | fuel+1, lists, σ =>
    if lists.isEmpty then evaluate fuel (.list [.sym "list"]) none σ
    else if lists.all (fun l => beqVal (isListV l) (.str "#t")) then
      match buildConcat lists with
      | .error e => (.error e, σ)
      | .ok elems => evaluate fuel (.list (.sym "list" :: elems)) none σ
    else (.error .evalE, σ)
termination_by structural fuel _ _ => fuel

end

/-! ## General lemmas about the evaluator -/

/-- Is this tree component one of the special-form keywords of the dispatch? -/
def specialForm (e : SExp) : Bool :=
  beqExp e (.sym "set!") || beqExp e (.sym "let") || beqExp e (.sym "del") ||
  beqExp e (.sym "list") || beqExp e (.sym "cons") || beqExp e (.sym "if") ||
  beqExp e (.sym "and") || beqExp e (.sym "or") || beqExp e (.sym "define") ||
  beqExp e (.sym "lambda")

theorem evalIn_ifD (fuel : Nat) (rest : List SExp) (i : Nat) (σ : State) :
    evalIn (fuel+1) (.list (.sym "if" :: rest)) i σ = evalIf fuel rest i σ := rfl

theorem evalIn_setD (fuel : Nat) (rest : List SExp) (i : Nat) (σ : State) :
    evalIn (fuel+1) (.list (.sym "set!" :: rest)) i σ = evalSet fuel rest i σ := rfl

theorem evalIn_defineD (fuel : Nat) (rest : List SExp) (i : Nat) (σ : State) :
    evalIn (fuel+1) (.list (.sym "define" :: rest)) i σ = evalDefine fuel rest i σ := rfl

/-- A compound expression whose head is not a special-form keyword is a
function application. -/
theorem evalIn_appD (fuel : Nat) (head : SExp) (rest : List SExp) (i : Nat) (σ : State)
    (h : specialForm head = false) :
    evalIn (fuel+1) (.list (head :: rest)) i σ = evalApp fuel head rest i σ := by
  simp only [specialForm, Bool.or_eq_false_iff] at h
  obtain ⟨⟨⟨⟨⟨⟨⟨⟨⟨h1, h2⟩, h3⟩, h4⟩, h5⟩, h6⟩, h7⟩, h8⟩, h9⟩, h10⟩ := h
  simp only [evalIn, h1, h2, h3, h4, h5, h6, h7, h8, h9, h10,
             Bool.false_eq_true, if_false]

/-! ## C1: which branch an `if` takes -/

/-- Claim C1 (counterexample).  The claim says a non-boolean-literal
condition whose evaluation result is anything but the false value (for
example the number 1) takes the then-branch.  In the code, `(if 1 2 3)`
evaluates to 3 — the else-branch — because the then-branch is taken only
when the condition evaluates equal to the true value '#t': the condition 1
is not a boolean literal, evaluates to the (non-false) number 1, the
then-branch evaluates to 2, yet the whole `if` returns 3 ≠ 2. -/
theorem claim_C1_counterexample :
    evalIn 6 (.list [.sym "if", .num 1, .num 2, .num 3]) 0 initState
        = (.ok (.num 3), initState) ∧
    asBoolLit (.num 1) = false ∧
    evalIn 5 (.num 1) 0 initState = (.ok (.num 1), initState) ∧
    beqVal (.num 1) (.str "#f") = false ∧
    evalIn 5 (.num 2) 0 initState = (.ok (.num 2), initState) ∧
    Value.num 3 ≠ Value.num 2 := by
  refine ⟨rfl, rfl, rfl, rfl, rfl, ?_⟩
  simp only [ne_eq, Value.num.injEq]
  norm_num

/-- Claim C1 (amended).  For `(if c t e)`: when the condition is the literal
true token, or is a non-literal that evaluates to the true value '#t', the
then-branch is taken; the literal false token, and every other evaluation
result — false, numbers, pairs, anything not equal to '#t' — takes the
else-branch.  The taken branch is returned unevaluated when it is itself a
literal boolean token, else evaluated in the current environment (in the
state left by evaluating the condition). -/
theorem claim_C1_amended :
    (∀ (f : Nat) (c t e : SExp) (i : Nat) (σ σ₁ : State) (v : Value),
       asBoolLit c = false →
       evalIn f c i σ = (.ok v, σ₁) →
       beqVal v (.str "#t") = true →
       evalIn (f+2) (.list [.sym "if", c, t, e]) i σ =
         if asBoolLit t then ((.ok (boolStr t) : Except Err Value), σ₁)
         else evalIn f t i σ₁)
  ∧ (∀ (f : Nat) (c t e : SExp) (i : Nat) (σ σ₁ : State) (v : Value),
       asBoolLit c = false →
       evalIn f c i σ = (.ok v, σ₁) →
       beqVal v (.str "#t") = false →
       evalIn (f+2) (.list [.sym "if", c, t, e]) i σ =
         if asBoolLit e then ((.ok (boolStr e) : Except Err Value), σ₁)
         else evalIn f e i σ₁)
  ∧ (∀ (f : Nat) (t e : SExp) (i : Nat) (σ : State),
       evalIn (f+2) (.list [.sym "if", .sym "#t", t, e]) i σ =
         if asBoolLit t then ((.ok (boolStr t) : Except Err Value), σ)
         else evalIn f t i σ)
  ∧ (∀ (f : Nat) (t e : SExp) (i : Nat) (σ : State),
       evalIn (f+2) (.list [.sym "if", .sym "#f", t, e]) i σ =
         if asBoolLit e then ((.ok (boolStr e) : Except Err Value), σ)
         else evalIn f e i σ) := by
  refine ⟨?_, ?_, ?_, ?_⟩
  · intro f c t e i σ σ₁ v hlit hev hv
    rw [evalIn_ifD]
    simp only [evalIf, idxE]
    rw [hlit]
    simp only [Bool.false_eq_true, if_false]
    rw [hev]
    simp only [hv, if_true]
  · intro f c t e i σ σ₁ v hlit hev hv
    rw [evalIn_ifD]
    simp only [evalIf, idxE]
    rw [hlit]
    simp only [Bool.false_eq_true, if_false]
    rw [hev]
    simp only [hv, Bool.false_eq_true, if_false]
  · intro f t e i σ
    rw [evalIn_ifD]
    simp [evalIf, idxE, asBoolLit, beqExp]
  · intro f t e i σ
    rw [evalIn_ifD]
    simp [evalIf, idxE, asBoolLit, beqExp]

/-- Witness for C1 (amended): each of the four cases applied at a concrete
input.  `(if (cons 1 2) 4 5)` evaluates its pair-valued condition and takes
the else-branch; `(if #t 4 5)` takes the then-branch unevaluated-condition
path. -/
theorem claim_C1_witness :
    (evalIn 9 (.list [.sym "if", .list [.sym "cons", .num 1, .num 2], .num 4, .num 5]) 0 initState =
       if asBoolLit (.num 5) then ((.ok (boolStr (.num 5)) : Except Err Value), initState)
       else evalIn 7 (.num 5) 0 initState)
  ∧ (evalIn 9 (.list [.sym "if", .sym "#t", .num 4, .num 5]) 0 initState =
       if asBoolLit (.num 4) then ((.ok (boolStr (.num 4)) : Except Err Value), initState)
       else evalIn 7 (.num 4) 0 initState)
  ∧ (evalIn 9 (.list [.sym "if", .sym "#f", .num 4, .num 5]) 0 initState =
       if asBoolLit (.num 5) then ((.ok (boolStr (.num 5)) : Except Err Value), initState)
       else evalIn 7 (.num 5) 0 initState)
  ∧ (evalIn 9 (.list [.sym "if", .list [.sym "equal?", .num 1, .num 1], .num 4, .num 5]) 0 initState =
       if asBoolLit (.num 4) then ((.ok (boolStr (.num 4)) : Except Err Value), initState)
       else evalIn 7 (.num 4) 0 initState) := by
  refine ⟨?_, ?_, ?_, ?_⟩
  · exact claim_C1_amended.2.1 7 (.list [.sym "cons", .num 1, .num 2]) (.num 4) (.num 5) 0
      initState initState (.pair (.num 1) (.num 2)) rfl rfl rfl
  · exact claim_C1_amended.2.2.1 7 (.num 4) (.num 5) 0 initState
  · exact claim_C1_amended.2.2.2 7 (.num 4) (.num 5) 0 initState
  · exact claim_C1_amended.1 7 (.list [.sym "equal?", .num 1, .num 1]) (.num 4) (.num 5) 0
      initState initState (.str "#t") rfl rfl rfl

/-! ## C2: the empty compound expression -/

/-- Claim C2 (counterexample).  The claim says evaluating the empty compound
expression does not raise an error; in the code the `pass` for an empty tree
falls through to the final `raise SchemeEvaluationError`. -/
theorem claim_C2_counterexample :
    evalIn 1 (.list []) 0 initState = (.error .evalE, initState) ∧
    Err.evalE.isSchemeError = true := ⟨rfl, rfl⟩

/-- Claim C2 (amended).  Evaluating the empty compound expression in any
environment (including the fresh-environment entry point) raises a
SchemeEvaluationError and leaves every existing frame unchanged; it is not a
silent no-op. -/
theorem claim_C2_amended :
    (∀ (f i : Nat) (σ : State), evalIn (f+1) (.list []) i σ = (.error .evalE, σ))
  ∧ (∀ (f : Nat) (σ : State),
       evaluate (f+2) (.list []) none σ = (.error .evalE, ⟨σ.frames ++ [⟨[], some 0⟩]⟩)) := by
  exact ⟨fun f i σ => rfl, fun f σ => rfl⟩

/-! ## C3: builtins can leak unclassified host exceptions -/

/-- Claim C3 (code bug).  The claim (and the spec's propagation policy) says
every builtin call either returns a value or fails with one of the language's
classified errors.  In the code, `(/ 1 0)` raises a raw ZeroDivisionError and
`(list-ref (list 1))` (the `list_ref` builtin applied to one argument, whose
arity guard only rejects zero or more-than-two arguments) raises a raw
IndexError from `arg[1]`; neither is a SchemeError, so the REPL's
`except SchemeError` handler would crash. -/
theorem claim_C3_theorem :
    (evaluate 20 (.list [.sym "/", .num 1, .num 0]) none initState).1 = .error .hostZero ∧
    (evaluate 20 (.list [.sym "list-ref", .list [.sym "list", .num 1]]) none initState).1
        = .error .hostIndex ∧
    listRefB [.pair (.num 1) .vnil] = .error .hostIndex ∧
    Err.hostZero.isSchemeError = false ∧
    Err.hostIndex.isSchemeError = false := ⟨rfl, rfl, rfl, rfl, rfl⟩

/-! ## C7: define rejects invalid names (plain form only) -/

theorem evalIn_lambdaD (fuel : Nat) (rest : List SExp) (i : Nat) (σ : State) :
    evalIn (fuel+1) (.list (.sym "lambda" :: rest)) i σ = evalLambda rest i σ := rfl

/-- Claim C7 (counterexample).  The claim says both `define` forms reject a
name containing a parenthesis or any whitespace character (or non-ASCII)
with an evaluation error and create no binding.  In the code: the sugar form
`(define ((a b) x) 7)` with the space-containing name "a b" performs no
validity check at all — it succeeds and creates the binding — and even the
plain form accepts the tab-containing name "a\tb" because `valid_name` only
checks for the space character. -/
theorem claim_C7_counterexample :
    (evalIn 9 (.list [.sym "define", .list [.sym "a b", .sym "x"], .num 7]) 0 ⟨[⟨[], none⟩]⟩
      = (.ok (.closure (.list [.sym "x"]) (.num 7) 0),
         ⟨[⟨[(.sym "a b", .closure (.list [.sym "x"]) (.num 7) 0)], none⟩]⟩)) ∧
    validName "a b" = false ∧
    (evalIn 9 (.list [.sym "define", .sym "a\tb", .num 5]) 0 ⟨[⟨[], none⟩]⟩
      = (.ok (.num 5), ⟨[⟨[(.sym "a\tb", .num 5)], none⟩]⟩)) ∧
    "a\tb".toList.contains '\t' = true := ⟨rfl, rfl, rfl, rfl⟩

/-- Claim C7 (amended).  For the plain form `(define name value-expr)`, a
name that fails `valid_name` — it contains a parenthesis or a space
character, or is not ASCII — is rejected with an evaluation error before the
value expression is even evaluated, and no binding is created (the state is
untouched).  The sugar form `(define (name params...) body)` performs no
name validation at all: for every name it simply binds the constructed
closure. -/
theorem claim_C7_amended :
    (∀ (f : Nat) (s : String) (vexpr : SExp) (i : Nat) (σ : State),
       validName s = false →
       evalIn (f+2) (.list [.sym "define", .sym s, vexpr]) i σ = (.error .evalE, σ))
  ∧ (∀ (f : Nat) (name : SExp) (ps : List SExp) (body : SExp) (i : Nat) (σ : State),
       evalIn (f+3) (.list [.sym "define", .list (name :: ps), body]) i σ =
         defineVarIn σ i name (.closure (.list ps) body i)) := by
  constructor
  · intro f s vexpr i σ h
    rw [evalIn_defineD]
    simp only [evalDefine, idxE, h, Bool.false_eq_true, if_false]
  · intro f name ps body i σ
    rfl

/-- Witness for C7 (amended): the plain form rejects the space-containing
name "a b" without touching the state. -/
theorem claim_C7_witness :
    evalIn 2 (.list [.sym "define", .sym "a b", .num 1]) 0 initState
      = (.error .evalE, initState) :=
  claim_C7_amended.1 0 "a b" (.num 1) 0 initState rfl

/-! ## C5: closure application -/

theorem get?_concat_self (l : List FrameR) (a : FrameR) :
    (l ++ [a]).get? l.length = some a := by
  induction l with
  | nil => rfl
  | cons x xs ih => simp only [List.cons_append, List.length_cons, List.get?]; exact ih

theorem set_concat_self (l : List FrameR) (a b : FrameR) :
    (l ++ [a]).set l.length b = l ++ [b] := by
  induction l with
  | nil => rfl
  | cons x xs ih =>
      simp only [List.cons_append, List.length_cons, List.set]
      exact congrArg (x :: ·) ih

/-- `sym`-keyed entries are hashable, so binding them into the freshly
allocated last frame always succeeds and folds `define_var` over the pairs. -/
theorem bindList_syms (pairs : List (String × Value)) :
    ∀ (fs : List FrameR) (w : List (SExp × Value)) (p : Option Nat),
    bindList ⟨fs ++ [⟨w, p⟩]⟩ fs.length (pairs.map (fun kv => (SExp.sym kv.1, kv.2))) =
      (.ok (), ⟨fs ++ [⟨pairs.foldl (fun acc kv => updateAssoc acc (.sym kv.1) kv.2) w, p⟩]⟩) := by
  induction pairs with
  | nil => intro fs w p; rfl
  | cons kv rest ih =>
      intro fs w p
      simp only [List.map, List.foldl, bindList, defineVarIn, unhashable,
                 Bool.false_eq_true, if_false, get?_concat_self, set_concat_self]
      exact ih fs (updateAssoc w (.sym kv.1) kv.2) p

/-- The frame contents produced by binding parameter names to argument
values positionally. -/
def bindParams (names : List String) (vs : List Value) : List (SExp × Value) :=
  (names.zip vs).foldl (fun acc kv => updateAssoc acc (.sym kv.1) kv.2) []

/-- Claim C5.  Applying a closure: with the wrong number of arguments the
application fails with an evaluation error (the argument expressions are not
evaluated); with matching arity the argument expressions are evaluated in
the caller's environment, bound positionally to the parameter names in a
fresh frame whose parent is the closure's captured defining frame, and the
closure's body is evaluated in that new frame. -/
theorem claim_C5_theorem :
    (∀ (f : Nat) (op : SExp) (args : List SExp) (ps body : SExp) (encf i : Nat)
       (σ σ₁ : State) (np : Nat),
       specialForm op = false →
       evalIn f op i σ = (.ok (.closure ps body encf), σ₁) →
       pyLen ps = .ok np →
       args.length ≠ np →
       evalIn (f+2) (.list (op :: args)) i σ = (.error .evalE, σ₁))
  ∧ (∀ (f : Nat) (op : SExp) (args : List SExp) (names : List String) (body : SExp)
       (encf i : Nat) (σ σ₁ σ₂ : State) (vs : List Value),
       specialForm op = false →
       evalIn f op i σ = (.ok (.closure (.list (names.map SExp.sym)) body encf), σ₁) →
       args.length = names.length →
       evalArgs f args i σ₁ = (.ok vs, σ₂) →
       evalIn (f+2) (.list (op :: args)) i σ =
         evalIn f body σ₂.frames.length
           ⟨σ₂.frames ++ [⟨bindParams names vs, some encf⟩]⟩) := by
  constructor
  · intro f op args ps body encf i σ σ₁ np hsp hop hlen hne
    rw [show f + 2 = (f+1) + 1 from rfl, evalIn_appD _ _ _ _ _ hsp]
    simp only [evalApp, hop, hlen, hne, if_false]
  · intro f op args names body encf i σ σ₁ σ₂ vs hsp hop hlen hargs
    rw [show f + 2 = (f+1) + 1 from rfl, evalIn_appD _ _ _ _ _ hsp]
    simp only [evalApp, hop, pyLen, List.length_map, hlen, if_true, hargs,
               allocFrame, paramKeys]
    have hz : (names.map SExp.sym).zip vs
        = (names.zip vs).map (fun kv => (SExp.sym kv.1, kv.2)) := by
      rw [List.zip_map_left]
      rfl
    rw [hz, bindList_syms]
    rfl

/-- Witness for C5: in a state with one closure `f` of a single parameter,
`(f 1 2)` is an arity error (two arguments against one parameter), and
`(f 7)` evaluates the body `x` in a fresh frame binding `x` to 7 whose
parent is the closure's defining frame. -/
theorem claim_C5_witness :
    (evalIn 5 (.list [.sym "f", .num 1, .num 2]) 0
        ⟨[⟨[(.sym "f", .closure (.list [.sym "x"]) (.sym "x") 0)], none⟩]⟩
      = (.error .evalE, ⟨[⟨[(.sym "f", .closure (.list [.sym "x"]) (.sym "x") 0)], none⟩]⟩))
  ∧ (evalIn 5 (.list [.sym "f", .num 7]) 0
        ⟨[⟨[(.sym "f", .closure (.list [.sym "x"]) (.sym "x") 0)], none⟩]⟩
      = evalIn 3 (.sym "x") 1
          ⟨[⟨[(.sym "f", .closure (.list [.sym "x"]) (.sym "x") 0)], none⟩,
            ⟨bindParams ["x"] [.num 7], some 0⟩]⟩) := by
  constructor
  · exact claim_C5_theorem.1 3 (.sym "f") [.num 1, .num 2] (.list [.sym "x"]) (.sym "x") 0 0
      _ _ 1 rfl rfl rfl (by decide)
  · exact claim_C5_theorem.2 3 (.sym "f") [.num 7] ["x"] (.sym "x") 0 0
      ⟨[⟨[(.sym "f", .closure (.list [.sym "x"]) (.sym "x") 0)], none⟩]⟩
      ⟨[⟨[(.sym "f", .closure (.list [.sym "x"]) (.sym "x") 0)], none⟩]⟩
      ⟨[⟨[(.sym "f", .closure (.list [.sym "x"]) (.sym "x") 0)], none⟩]⟩
      [.num 7] rfl rfl rfl rfl

/-! ## C4 and C10: `set!` -/

/-- The chain of frame indices from `i` up through parent references to a
root (a frame with no parent); `none` when the walk runs out of fuel or hits
a dangling index. -/
def chainList (σ : State) : Nat → Nat → Option (List Nat)
  | 0, _ => none
  | fuel+1, i =>
    match σ.frames.get? i with
    | none => none
    | some fr =>
      match fr.parent with
      | none => some [i]
      | some p => (chainList σ fuel p).map (i :: ·)

/-- The first frame of the chain that defines `key`. -/
def nearestIn (σ : State) (ids : List Nat) (key : SExp) : Option Nat :=
  ids.find? (fun j => (frameLookup σ j key).isSome)

/-- `find_nearest` walks the parent chain and returns the first frame
defining `key`, or SchemeNameError when no frame of the chain does. -/
theorem findNearest_chain (σ : State) (key : SExp) (hk : unhashable key = false) :
    ∀ (fuel i : Nat) (ids : List Nat), chainList σ fuel i = some ids →
    findNearest σ fuel i key =
      (match nearestIn σ ids key with
       | some j => .ok j
       | none => .error .nameE) := by
  intro fuel
  induction fuel with
  | zero => intro i ids h; simp [chainList] at h
  | succ f ih =>
      intro i ids h
      simp only [chainList] at h
      simp only [findNearest, hk, Bool.false_eq_true, if_false]
      cases hg : σ.frames.get? i with
      | none => simp only [hg] at h; simp at h
      | some fr =>
          have hg' : σ.frames[i]? = some fr := by
            rw [← List.get?_eq_getElem?]; exact hg
          simp only [hg] at h ⊢
          cases hp : fr.parent with
          | none =>
              simp only [hp, Option.some.injEq] at h ⊢
              subst h
              cases hl : lookupAssoc fr.vars key with
              | none => simp [nearestIn, List.find?, frameLookup, hg, hg', hl]
              | some v => simp [nearestIn, List.find?, frameLookup, hg, hg', hl]
          | some p =>
              simp only [hp] at h ⊢
              cases hc : chainList σ f p with
              | none => rw [hc] at h; simp at h
              | some tl =>
                  rw [hc] at h
                  simp at h
                  subst h
                  cases hl : lookupAssoc fr.vars key with
                  | none =>
                      have hrec := ih p tl hc
                      simp [nearestIn, List.find?, frameLookup, hg, hg', hl, hrec]
                  | some v => simp [nearestIn, List.find?, frameLookup, hg, hg', hl]

/-- `set!` when some frame of the chain defines the name: the value
expression is evaluated first, then the nearest such frame is rebound in
place and the new value returned. -/
theorem evalSet_found (f : Nat) (s : String) (vexpr : SExp) (i : Nat)
    (σ σ' : State) (v : Value) (ids : List Nat) (j : Nat) (frj : FrameR)
    (hev : evalIn f vexpr i σ = (.ok v, σ'))
    (hchain : chainList σ' (σ'.frames.length + 1) i = some ids)
    (hnear : nearestIn σ' ids (.sym s) = some j)
    (hfr : σ'.frames.get? j = some frj) :
    evalIn (f+2) (.list [.sym "set!", .sym s, vexpr]) i σ =
      (.ok v, ⟨σ'.frames.set j ⟨updateAssoc frj.vars (.sym s) v, frj.parent⟩⟩) := by
  rw [show f + 2 = (f+1) + 1 from rfl, evalIn_setD]
  simp only [evalSet, idxE, hev]
  rw [findNearest_chain σ' (.sym s) rfl _ i ids hchain]
  simp only [hnear, defineVarIn, unhashable, Bool.false_eq_true, if_false, hfr]

/-- `set!` when no frame of the chain defines the name: SchemeNameError, and
the state is exactly the one left by evaluating the value expression — in
particular no binding for the name is created anywhere. -/
theorem evalSet_missing (f : Nat) (s : String) (vexpr : SExp) (i : Nat)
    (σ σ' : State) (v : Value) (ids : List Nat)
    (hev : evalIn f vexpr i σ = (.ok v, σ'))
    (hchain : chainList σ' (σ'.frames.length + 1) i = some ids)
    (hnear : nearestIn σ' ids (.sym s) = none) :
    evalIn (f+2) (.list [.sym "set!", .sym s, vexpr]) i σ = (.error .nameE, σ') := by
  rw [show f + 2 = (f+1) + 1 from rfl, evalIn_setD]
  simp only [evalSet, idxE, hev]
  rw [findNearest_chain σ' (.sym s) rfl _ i ids hchain]
  simp only [hnear]

/-- Claim C4.  For `(set! name value-expr)`: the value expression is
evaluated in the current environment; then the nearest enclosing frame
already defining `name` is rebound in place and the new value is returned;
if no frame of the chain defines `name`, evaluation fails with a name error
and the heap is left exactly as the value-expression evaluation left it, so
no binding for `name` is created in any frame. -/
theorem claim_C4_theorem :
    (∀ (f : Nat) (s : String) (vexpr : SExp) (i : Nat) (σ σ' : State) (v : Value)
       (ids : List Nat) (j : Nat) (frj : FrameR),
       evalIn f vexpr i σ = (.ok v, σ') →
       chainList σ' (σ'.frames.length + 1) i = some ids →
       nearestIn σ' ids (.sym s) = some j →
       σ'.frames.get? j = some frj →
       evalIn (f+2) (.list [.sym "set!", .sym s, vexpr]) i σ =
         (.ok v, ⟨σ'.frames.set j ⟨updateAssoc frj.vars (.sym s) v, frj.parent⟩⟩))
  ∧ (∀ (f : Nat) (s : String) (vexpr : SExp) (i : Nat) (σ σ' : State) (v : Value)
       (ids : List Nat),
       evalIn f vexpr i σ = (.ok v, σ') →
       chainList σ' (σ'.frames.length + 1) i = some ids →
       nearestIn σ' ids (.sym s) = none →
       evalIn (f+2) (.list [.sym "set!", .sym s, vexpr]) i σ = (.error .nameE, σ') ∧
       ∀ k : Nat, frameLookup (evalIn (f+2) (.list [.sym "set!", .sym s, vexpr]) i σ).2 k (.sym s)
         = frameLookup σ' k (.sym s)) := by
  refine ⟨fun f s vexpr i σ σ' v ids j frj hev hch hn hf =>
            evalSet_found f s vexpr i σ σ' v ids j frj hev hch hn hf,
          fun f s vexpr i σ σ' v ids hev hch hn => ?_⟩
  have h := evalSet_missing f s vexpr i σ σ' v ids hev hch hn
  exact ⟨h, fun k => by rw [h]⟩

/-- Witness for C4: in a heap with a root frame binding `y` and an empty
child frame, `(set! y 5)` from the child rebinds `y` in the root and returns
5; `(set! zz 5)` fails with a name error and leaves the heap unchanged. -/
theorem claim_C4_witness :
    (evalIn 3 (.list [.sym "set!", .sym "y", .num 5]) 1
        ⟨[⟨[(.sym "y", .num 1)], none⟩, ⟨[], some 0⟩]⟩
      = (.ok (.num 5), ⟨[⟨[(.sym "y", .num 5)], none⟩, ⟨[], some 0⟩]⟩))
  ∧ (evalIn 3 (.list [.sym "set!", .sym "zz", .num 5]) 1
        ⟨[⟨[(.sym "y", .num 1)], none⟩, ⟨[], some 0⟩]⟩
      = (.error .nameE, ⟨[⟨[(.sym "y", .num 1)], none⟩, ⟨[], some 0⟩]⟩)) := by
  constructor
  · exact claim_C4_theorem.1 1 "y" (.num 5) 1
      ⟨[⟨[(.sym "y", .num 1)], none⟩, ⟨[], some 0⟩]⟩
      ⟨[⟨[(.sym "y", .num 1)], none⟩, ⟨[], some 0⟩]⟩
      (.num 5) [1, 0] 0 ⟨[(.sym "y", .num 1)], none⟩ rfl rfl rfl rfl
  · exact (claim_C4_theorem.2 1 "zz" (.num 5) 1
      ⟨[⟨[(.sym "y", .num 1)], none⟩, ⟨[], some 0⟩]⟩
      ⟨[⟨[(.sym "y", .num 1)], none⟩, ⟨[], some 0⟩]⟩
      (.num 5) [1, 0] rfl rfl rfl).1

/-- Looking up a key right after `define_var` wrote it finds the new value. -/
theorem lookupAssoc_update (l : List (SExp × Value)) (s : String) (v : Value) :
    lookupAssoc (updateAssoc l (.sym s) v) (.sym s) = some v := by
  induction l with
  | nil => simp [updateAssoc, lookupAssoc, beqExp]
  | cons kv rest ih =>
      obtain ⟨k', v'⟩ := kv
      by_cases h : beqExp k' (.sym s) = true
      · simp [updateAssoc, lookupAssoc, h]
      · simp only [Bool.not_eq_true] at h
        simp [updateAssoc, lookupAssoc, h, ih]

theorem get?_set_self (l : List FrameR) :
    ∀ (i : Nat) (a : FrameR), i < l.length → (l.set i a).get? i = some a := by
  induction l with
  | nil => intro i a h; simp at h
  | cons x xs ih =>
      intro i a h
      cases i with
      | zero => rfl
      | succ n =>
          simp only [List.set, List.get?]
          exact ih n a (by simpa using h)

/-- When the last frame of the chain is the root frame 0, the root defines
the name and no other chain frame does, the nearest defining frame is 0. -/
theorem nearestIn_last_zero (σ : State) (key : SExp) :
    ∀ ids : List Nat, ids.getLast? = some 0 →
    (∀ j ∈ ids.dropLast, frameLookup σ j key = none) →
    (frameLookup σ 0 key).isSome = true →
    nearestIn σ ids key = some 0 := by
  intro ids
  induction ids with
  | nil => intro h; simp at h
  | cons a tl ih =>
      intro hlast hpre hsome
      cases tl with
      | nil =>
          simp only [List.getLast?_singleton, Option.some.injEq] at hlast
          subst hlast
          simp [nearestIn, List.find?, hsome]
      | cons b tl2 =>
          have ha : frameLookup σ a key = none := by
            exact hpre a (by simp [List.dropLast])
          have hrec : nearestIn σ (b :: tl2) key = some 0 := by
            refine ih ?_ ?_ hsome
            · simpa [List.getLast?_cons_cons] using hlast
            · intro j hj
              exact hpre j (by simp [List.dropLast_cons_of_ne_nil, hj])
          simp only [nearestIn, List.find?, ha, Option.isSome_none] at hrec ⊢
          simpa using hrec

/-- A fresh-environment `evaluate` of a bare name: a new child of the global
frame 0 is allocated and the lookup walks from it into frame 0. -/
theorem evaluate_fresh_lookup (g : Nat) (s : String) (σ2 : State) (fr : FrameR) (v : Value)
    (hg : σ2.frames.get? 0 = some fr)
    (hl : lookupAssoc fr.vars (.sym s) = some v) :
    evaluate (g+2) (.sym s) none σ2 = (.ok v, ⟨σ2.frames ++ [⟨[], some 0⟩]⟩) := by
  have hlen : 0 < σ2.frames.length := by
    cases hfr : σ2.frames with
    | nil => rw [hfr] at hg; simp [List.get?] at hg
    | cons a l => simp [hfr]
  have hga : (σ2.frames ++ [⟨[], some 0⟩] : List FrameR).get? 0 = some fr := by
    rw [List.get?_eq_getElem?, List.getElem?_append_left hlen, ← List.get?_eq_getElem?]
    exact hg
  have hgc : (σ2.frames ++ [⟨[], some 0⟩] : List FrameR).get? σ2.frames.length
      = some ⟨[], some 0⟩ := get?_concat_self _ _
  simp only [evaluate, allocFrame, evalIn, List.length_append, List.length_cons,
             List.length_nil, Nat.zero_add]
  simp only [searchFrames, unhashable, Bool.false_eq_true, if_false, hgc,
             lookupAssoc, hga, hl]

/-- Claim C10.  A `set!` whose target is bound in the root frame 0 and in no
other frame of the current chain rebinds it in the root frame itself, and a
later `evaluate` call with no environment argument (which evaluates in a
fresh child of that same root) sees the new value. -/
theorem claim_C10_theorem :
    ∀ (f g : Nat) (s : String) (vexpr : SExp) (i : Nat) (σ σ' : State) (v w : Value)
      (ids : List Nat) (fr0 : FrameR),
      evalIn f vexpr i σ = (.ok v, σ') →
      chainList σ' (σ'.frames.length + 1) i = some ids →
      ids.getLast? = some 0 →
      (∀ j ∈ ids.dropLast, frameLookup σ' j (.sym s) = none) →
      σ'.frames.get? 0 = some fr0 →
      lookupAssoc fr0.vars (.sym s) = some w →
      evalIn (f+2) (.list [.sym "set!", .sym s, vexpr]) i σ =
        (.ok v, ⟨σ'.frames.set 0 ⟨updateAssoc fr0.vars (.sym s) v, fr0.parent⟩⟩) ∧
      evaluate (g+2) (.sym s) none
          ⟨σ'.frames.set 0 ⟨updateAssoc fr0.vars (.sym s) v, fr0.parent⟩⟩ =
        (.ok v,
         ⟨σ'.frames.set 0 ⟨updateAssoc fr0.vars (.sym s) v, fr0.parent⟩ ++ [⟨[], some 0⟩]⟩) := by
  intro f g s vexpr i σ σ' v w ids fr0 hev hch hlast hpre hfr0 hw
  have hlen : 0 < σ'.frames.length := by
    cases hfr : σ'.frames with
    | nil => rw [hfr] at hfr0; simp [List.get?] at hfr0
    | cons a l => simp [hfr]
  have hfr0' : σ'.frames[0]? = some fr0 := by
    rw [← List.get?_eq_getElem?]; exact hfr0
  constructor
  · refine evalSet_found f s vexpr i σ σ' v ids 0 fr0 hev hch ?_ hfr0
    exact nearestIn_last_zero σ' (.sym s) ids hlast hpre
      (by simp [frameLookup, hfr0, hfr0', hw])
  · refine evaluate_fresh_lookup g s _ ⟨updateAssoc fr0.vars (.sym s) v, fr0.parent⟩ v ?_ ?_
    · exact get?_set_self _ 0 _ hlen
    · exact lookupAssoc_update fr0.vars s v

/-- Witness for C10: the root frame binds `+` (the builtin); from a child
frame, `(set! + 9)` rebinds `+` in the root, and a fresh-environment lookup
of `+` then sees 9. -/
theorem claim_C10_witness :
    (evalIn 3 (.list [.sym "set!", .sym "+", .num 9]) 1
        ⟨[⟨[(.sym "+", .builtin .add)], none⟩, ⟨[], some 0⟩]⟩
      = (.ok (.num 9), ⟨[⟨[(.sym "+", .num 9)], none⟩, ⟨[], some 0⟩]⟩))
  ∧ (evaluate 2 (.sym "+") none ⟨[⟨[(.sym "+", .num 9)], none⟩, ⟨[], some 0⟩]⟩
      = (.ok (.num 9), ⟨[⟨[(.sym "+", .num 9)], none⟩, ⟨[], some 0⟩, ⟨[], some 0⟩]⟩)) := by
  have h := claim_C10_theorem 1 0 "+" (.num 9) 1
    ⟨[⟨[(.sym "+", .builtin .add)], none⟩, ⟨[], some 0⟩]⟩
    ⟨[⟨[(.sym "+", .builtin .add)], none⟩, ⟨[], some 0⟩]⟩
    (.num 9) (.builtin .add) [1, 0] ⟨[(.sym "+", .builtin .add)], none⟩
    rfl rfl rfl (by intro j hj; simp at hj; subst hj; rfl) rfl rfl
  exact h

/-! ## C8: the `/` builtin -/

/-- The reciprocal comprehension `[div([arg]) for arg in args[1:]]` succeeds
on nonzero numbers. -/
theorem mapM_divOne (xs : List ℚ) (h : ∀ x ∈ xs, x ≠ 0) :
    (xs.map Value.num).mapM divOne = .ok (xs.map (fun x => Value.num (1/x))) := by
  induction xs with
  | nil => rfl
  | cons x rest ih =>
      have hx : x ≠ 0 := h x (by simp)
      simp only [List.map, List.mapM_cons, divOne, hx, if_false]
      rw [ih (fun y hy => h y (by simp [hy]))]
      rfl

/-- The `*` builtin on a list of numbers is their right-nested product. -/
theorem mulB_nums (xs : List ℚ) :
    mulB (xs.map Value.num) = .ok (.num (xs.foldr (fun x acc => x * acc) 1)) := by
  induction xs with
  | nil => rfl
  | cons x rest ih =>
      simp only [List.map, List.foldr, mulB, ih, Except.bind]
      rfl

/-- Multiplying by right-nested reciprocals is successive left-to-right
division (an identity of `ℚ`). -/
theorem foldl_div_eq (xs : List ℚ) :
    ∀ a : ℚ, a * (xs.map (fun x => 1/x)).foldr (fun x acc => x * acc) 1
      = xs.foldl (fun x y => x / y) a := by
  induction xs with
  | nil => intro a; simp
  | cons x rest ih =>
      intro a
      simp only [List.map, List.foldr, List.foldl]
      rw [← ih (a / x)]
      ring

/-- Claim C8.  The `/` builtin: zero arguments fail with an evaluation
error; one (nonzero) argument gives the reciprocal; two or more arguments
give the first divided successively, left to right, by each of the rest
(nonzero divisors). -/
theorem claim_C8_theorem :
    (divB [] = .error .evalE)
  ∧ (∀ a : ℚ, a ≠ 0 → divB [.num a] = .ok (.num (1 / a)))
  ∧ (∀ (a b : ℚ) (rest : List ℚ), b ≠ 0 → (∀ x ∈ rest, x ≠ 0) →
      divB (.num a :: .num b :: rest.map Value.num) =
        .ok (.num ((b :: rest).foldl (fun x y => x / y) a))) := by
  refine ⟨rfl, ?_, ?_⟩
  · intro a ha
    simp [divB, divOne, ha]
  · intro a b rest hb hrest
    have hall : ∀ x ∈ b :: rest, x ≠ 0 := by
      intro x hx
      rcases List.mem_cons.mp hx with h | h
      · exact h ▸ hb
      · exact hrest x h
    have hmap : (Value.num b :: rest.map Value.num) = (b :: rest).map Value.num := rfl
    have hcomp : List.map (fun x => Value.num (1/x)) (b :: rest)
        = ((b :: rest).map (fun x => 1/x)).map Value.num := by
      rw [List.map_map]; rfl
    simp only [divB, hmap, mapM_divOne (b :: rest) hall, Bind.bind, Except.bind, hcomp,
               mulB_nums, pyMul, foldl_div_eq]

/-- Witness for C8: `(/ 2)` is the reciprocal 1/2, and `(/ 6 2 3)` divides 6
by 2 and then by 3, giving 1. -/
theorem claim_C8_witness :
    divB [.num 2] = .ok (.num (1/2)) ∧
    divB [.num 6, .num 2, .num 3] = .ok (.num 1) := by
  constructor
  · exact claim_C8_theorem.2.1 2 (by norm_num)
  · have h := claim_C8_theorem.2.2 6 2 [3] (by norm_num) (by norm_num)
    have h2 : (Except.ok (Value.num (List.foldl (fun x y => x / y) 6 [2, 3]))
        : Except Err Value) = .ok (.num 1) := by
      norm_num [List.foldl]
    exact h.trans h2

/-! ## The tokenizer

`tokenize` works on the source text as a list of characters (tokens are
lists of characters).  ASCII whitespace and line endings are modelled;
`splitLinesAux`/`pySplitAux` mirror Python `str.splitlines()` / `str.split()`
(split on runs of whitespace, no empty words), and `scanWordAux` is the
source's per-word character loop emitting parentheses as their own tokens. -/

/-- Python `str.split()` whitespace (ASCII). -/
def pyIsSpace (c : Char) : Bool :=
  c == ' ' || c == '\t' || c == '\n' || c == '\r' || c == '\x0b' || c == '\x0c'

/-- The `\n` of a `\r\n` line ending, consumed together with the `\r`. -/
def dropLf : List Char → List Char
  | [] => []
  | c :: r => if c = '\n' then r else c :: r

theorem dropLf_length (r : List Char) : (dropLf r).length ≤ r.length := by
  cases r with
  | nil => exact Nat.le_refl _
  | cons c rest => by_cases h : c = '\n' <;> simp [dropLf, h]

/-- Python `str.splitlines()` (ASCII line endings `\n`, `\r`, `\r\n`):
accumulate the current line, flush at each line ending; a trailing fragment
is kept, a trailing line ending adds no empty final line. -/
def splitLinesAux : List Char → List Char → List (List Char)
  | [], acc => if acc.isEmpty then [] else [acc.reverse]
  | c :: rest, acc =>
      if c = '\r' then acc.reverse :: splitLinesAux (dropLf rest) []
      else if c = '\n' then acc.reverse :: splitLinesAux rest []
      else splitLinesAux rest (c :: acc)
termination_by s _ => s.length
decreasing_by
  all_goals simp_wf
  all_goals (first
    | omega
    | (have hd := dropLf_length rest
       omega))

def pySplitLines (s : List Char) : List (List Char) := splitLinesAux s []

/-- `line.find(';')` followed by slicing the prefix keeps exactly the
characters before the first `';'` (the whole line when there is none). -/
def stripComment (line : List Char) : List Char :=
  line.takeWhile (fun c => c != ';')

/-- Python `str.split()`: split on whitespace runs, discarding empties. -/
def pySplitAux : List Char → List Char → List (List Char)
  | [], acc => if acc.isEmpty then [] else [acc.reverse]
  | c :: rest, acc =>
      if pyIsSpace c then
        if acc.isEmpty then pySplitAux rest []
        else acc.reverse :: pySplitAux rest []
      else pySplitAux rest (c :: acc)

def pySplit (s : List Char) : List (List Char) := pySplitAux s []

/-- The per-word character loop of `tokenize`: parentheses flush the
in-progress token and are emitted as their own tokens; other characters
accumulate; the final token is flushed if nonempty. -/
def scanWordAux : List Char → List Char → List (List Char)
  | [], token => if token.isEmpty then [] else [token.reverse]
  | c :: rest, token =>
      if c = '(' ∨ c = ')' then
        if token.isEmpty then [c] :: scanWordAux rest []
        else token.reverse :: [c] :: scanWordAux rest []
      else scanWordAux rest (c :: token)

def scanWord (w : List Char) : List (List Char) := scanWordAux w []

/-- `tokenize`: strip comments per line, split each line on whitespace, and
scan every word for parentheses. -/
def tokenize (source : List Char) : List (List Char) :=
  (((pySplitLines source).map stripComment).flatMap pySplit).flatMap scanWord

/-- Python `' '.join(tokens)`. -/
def joinSp : List (List Char) → List Char
  | [] => []
  | [w] => w
  | w :: rest => w ++ ' ' :: joinSp rest

/-! ## C9: tokenize / join / tokenize round trip -/

/-- What tokenization guarantees about every emitted token: nonempty, free
of whitespace and of `';'`, and either a lone parenthesis or parenthesis-free. -/
def TokenWF (t : List Char) : Prop :=
  t ≠ [] ∧ (∀ c ∈ t, pyIsSpace c = false ∧ c ≠ ';') ∧
  (t = ['('] ∨ t = [')'] ∨ ∀ c ∈ t, c ≠ '(' ∧ c ≠ ')')

theorem stripComment_no_semi (line : List Char) : ∀ c ∈ stripComment line, c ≠ ';' := by
  intro c hc
  have h := List.mem_takeWhile_imp hc
  simpa using h

theorem pySplitAux_wf (P : Char → Prop) (s : List Char) :
    ∀ (acc : List Char), (∀ c ∈ s, P c) → (∀ c ∈ acc, pyIsSpace c = false ∧ P c) →
    ∀ w ∈ pySplitAux s acc, w ≠ [] ∧ ∀ c ∈ w, pyIsSpace c = false ∧ P c := by
  induction s with
  | nil =>
      intro acc _ hacc w hw
      simp only [pySplitAux] at hw
      by_cases h : acc.isEmpty
      · simp [h] at hw
      · rw [if_neg h] at hw
        simp only [List.mem_singleton] at hw
        subst hw
        refine ⟨?_, ?_⟩
        · simp only [ne_eq, List.reverse_eq_nil_iff]
          intro hnil
          rw [hnil] at h
          exact h rfl
        · intro c hc
          exact hacc c (List.mem_reverse.mp hc)
  | cons c rest ih =>
      intro acc hs hacc w hw
      simp only [pySplitAux] at hw
      by_cases hsp : pyIsSpace c = true
      · rw [if_pos hsp] at hw
        by_cases hae : acc.isEmpty
        · rw [if_pos hae] at hw
          exact ih [] (fun d hd => hs d (List.mem_cons_of_mem c hd)) (by simp) w hw
        · rw [if_neg hae] at hw
          rcases List.mem_cons.mp hw with h | h
          · subst h
            refine ⟨?_, ?_⟩
            · simp only [ne_eq, List.reverse_eq_nil_iff]
              intro hnil
              rw [hnil] at hae
              exact hae rfl
            · intro d hd
              exact hacc d (List.mem_reverse.mp hd)
          · exact ih [] (fun d hd => hs d (List.mem_cons_of_mem c hd)) (by simp) w h
      · rw [if_neg hsp] at hw
        refine ih (c :: acc) (fun d hd => hs d (List.mem_cons_of_mem c hd)) ?_ w hw
        intro d hd
        rcases List.mem_cons.mp hd with h | h
        · subst h
          exact ⟨by simpa using hsp, hs d (List.mem_cons_self _ _)⟩
        · exact hacc d h

theorem scanWordAux_wf (P : Char → Prop) (w : List Char) :
    ∀ (token : List Char), (∀ c ∈ w, P c) →
    (∀ c ∈ token, P c ∧ c ≠ '(' ∧ c ≠ ')') →
    ∀ t ∈ scanWordAux w token,
      t ≠ [] ∧ (∀ c ∈ t, P c) ∧ (t = ['('] ∨ t = [')'] ∨ ∀ c ∈ t, c ≠ '(' ∧ c ≠ ')') := by
  induction w with
  | nil =>
      intro token _ htok t ht
      simp only [scanWordAux] at ht
      by_cases h : token.isEmpty
      · simp [h] at ht
      · rw [if_neg h] at ht
        simp only [List.mem_singleton] at ht
        subst ht
        refine ⟨?_, fun c hc => (htok c (List.mem_reverse.mp hc)).1,
                Or.inr (Or.inr fun c hc => (htok c (List.mem_reverse.mp hc)).2)⟩
        simp only [ne_eq, List.reverse_eq_nil_iff]
        intro hnil
        rw [hnil] at h
        exact h rfl
  | cons c rest ih =>
      intro token hw htok t ht
      simp only [scanWordAux] at ht
      by_cases hp : c = '(' ∨ c = ')'
      · rw [if_pos hp] at ht
        have hlit : ([c] ≠ ([] : List Char)) ∧ (∀ d ∈ [c], P d) ∧
            ([c] = ['('] ∨ [c] = [')'] ∨ ∀ d ∈ [c], d ≠ '(' ∧ d ≠ ')') := by
          refine ⟨by simp, ?_, ?_⟩
          · intro d hd
            rw [List.mem_singleton.mp hd]
            exact hw c (List.mem_cons_self c rest)
          · rcases hp with h | h
            · exact Or.inl (by rw [h])
            · exact Or.inr (Or.inl (by rw [h]))
        by_cases he : token.isEmpty
        · rw [if_pos he] at ht
          rcases List.mem_cons.mp ht with h | h
          · subst h; exact hlit
          · exact ih [] (fun d hd => hw d (List.mem_cons_of_mem c hd)) (by simp) t h
        · rw [if_neg he] at ht
          rcases List.mem_cons.mp ht with h | h
          · subst h
            refine ⟨?_, fun d hd => (htok d (List.mem_reverse.mp hd)).1,
                    Or.inr (Or.inr fun d hd => (htok d (List.mem_reverse.mp hd)).2)⟩
            simp only [ne_eq, List.reverse_eq_nil_iff]
            intro hnil
            rw [hnil] at he
            exact he rfl
          · rcases List.mem_cons.mp h with h2 | h2
            · subst h2; exact hlit
            · exact ih [] (fun d hd => hw d (List.mem_cons_of_mem c hd)) (by simp) t h2
      · rw [if_neg hp] at ht
        refine ih (c :: token) (fun d hd => hw d (List.mem_cons_of_mem c hd)) ?_ t ht
        intro d hd
        rcases List.mem_cons.mp hd with h | h
        · subst h
          push_neg at hp
          exact ⟨hw d (List.mem_cons_self _ _), hp⟩
        · exact htok d h

/-- Every token produced by `tokenize` is well-formed. -/
theorem tokenize_wf (s : List Char) : ∀ t ∈ tokenize s, TokenWF t := by
  intro t ht
  simp only [tokenize, List.mem_flatMap, List.mem_map] at ht
  obtain ⟨w, ⟨line', ⟨line, _, rfl⟩, hw⟩, ht⟩ := ht
  have hwf := pySplitAux_wf (fun c => c ≠ ';') (stripComment line) []
      (stripComment_no_semi line) (by simp) w hw
  have hfin := scanWordAux_wf (fun c => pyIsSpace c = false ∧ c ≠ ';') w []
      (fun c hc => hwf.2 c hc) (by simp) t ht
  exact ⟨hfin.1, hfin.2.1, hfin.2.2⟩

/-- A text with no line-ending characters is a single line. -/
theorem splitLines_single (s : List Char) :
    ∀ (acc : List Char), (∀ c ∈ s, c ≠ '\n' ∧ c ≠ '\r') →
    splitLinesAux s acc =
      if acc.isEmpty ∧ s.isEmpty then [] else [acc.reverse ++ s] := by
  induction s with
  | nil =>
      intro acc _
      by_cases h : acc.isEmpty
      · simp [splitLinesAux, h]
      · simp [splitLinesAux, h]
  | cons c rest ih =>
      intro acc h
      have hc := h c (List.mem_cons_self _ _)
      rw [splitLinesAux]
      rw [if_neg hc.2, if_neg hc.1]
      rw [ih (c :: acc) (fun d hd => h d (List.mem_cons_of_mem c hd))]
      simp

/-- Stripping comments from a semicolon-free line keeps it whole. -/
theorem stripComment_id (l : List Char) (h : ∀ c ∈ l, c ≠ ';') :
    stripComment l = l := by
  induction l with
  | nil => rfl
  | cons c rest ih =>
      have hc : (c != ';') = true := by
        simpa using h c (List.mem_cons_self _ _)
      simp only [stripComment, List.takeWhile] at ih ⊢
      rw [hc]
      simp only [ih (fun d hd => h d (List.mem_cons_of_mem c hd))]

/-- Splitting consumes a whitespace-free word whole. -/
theorem pySplitAux_word (w : List Char) :
    ∀ (rest acc : List Char), (∀ c ∈ w, pyIsSpace c = false) →
    pySplitAux (w ++ rest) acc = pySplitAux rest (w.reverse ++ acc) := by
  induction w with
  | nil => intro rest acc _; simp
  | cons c w2 ih =>
      intro rest acc h
      have hc := h c (List.mem_cons_self _ _)
      simp only [List.cons_append, pySplitAux, hc, Bool.false_eq_true, if_false,
                 List.append_eq]
      rw [ih rest (c :: acc) (fun d hd => h d (List.mem_cons_of_mem c hd))]
      simp

/-- `split` is a left inverse of `' '.join` on nonempty whitespace-free
words. -/
theorem pySplit_join (L : List (List Char))
    (h : ∀ w ∈ L, w ≠ [] ∧ ∀ c ∈ w, pyIsSpace c = false) :
    pySplit (joinSp L) = L := by
  induction L with
  | nil => rfl
  | cons w rest ih =>
      obtain ⟨hne, hch⟩ := h w (List.mem_cons_self _ _)
      have hemp : w.reverse.isEmpty = false := by
        cases hw : w.reverse with
        | nil => exact absurd (List.reverse_eq_nil_iff.mp hw) hne
        | cons a l => rfl
      cases rest with
      | nil =>
          show pySplitAux w [] = [w]
          have := pySplitAux_word w [] [] hch
          rw [List.append_nil] at this
          rw [this]
          simp only [pySplitAux, List.append_nil, hemp, Bool.false_eq_true, if_false]
          simp
      | cons w2 rest2 =>
          show pySplitAux (w ++ ' ' :: joinSp (w2 :: rest2)) [] = w :: w2 :: rest2
          rw [pySplitAux_word w _ [] hch]
          rw [show pySplitAux (' ' :: joinSp (w2 :: rest2)) (w.reverse ++ []) =
                if (w.reverse ++ []).isEmpty then pySplitAux (joinSp (w2 :: rest2)) []
                else (w.reverse ++ []).reverse :: pySplitAux (joinSp (w2 :: rest2)) []
              from rfl]
          rw [List.append_nil, if_neg (by rw [hemp]; exact Bool.false_ne_true)]
          rw [List.reverse_reverse]
          rw [show pySplitAux (joinSp (w2 :: rest2)) [] = pySplit (joinSp (w2 :: rest2)) from rfl]
          rw [ih (fun u hu => h u (List.mem_cons_of_mem w hu))]

/-- The character scan of a nonempty parenthesis-free word emits the word
itself as its only token. -/
theorem scanWordAux_noparen (w : List Char) :
    ∀ (acc : List Char), (∀ c ∈ w, c ≠ '(' ∧ c ≠ ')') →
    scanWordAux w acc =
      if acc.isEmpty ∧ w.isEmpty then [] else [acc.reverse ++ w] := by
  induction w with
  | nil =>
      intro acc _
      by_cases h : acc.isEmpty
      · simp [scanWordAux, h]
      · simp [scanWordAux, h]
  | cons c rest ih =>
      intro acc h
      have hc := h c (List.mem_cons_self _ _)
      rw [scanWordAux, if_neg (by push_neg; exact hc)]
      rw [ih (c :: acc) (fun d hd => h d (List.mem_cons_of_mem c hd))]
      simp

/-- Scanning every well-formed token returns the token list unchanged. -/
theorem flatMap_scanWord (L : List (List Char)) (h : ∀ t ∈ L, TokenWF t) :
    L.flatMap scanWord = L := by
  induction L with
  | nil => rfl
  | cons t rest ih =>
      obtain ⟨hne, _, hpar⟩ := h t (List.mem_cons_self _ _)
      have hone : scanWord t = [t] := by
        rcases hpar with h1 | h1 | h1
        · subst h1; rfl
        · subst h1; rfl
        · rw [scanWord, scanWordAux_noparen t [] h1]
          simp [List.isEmpty_iff, hne]
      rw [List.flatMap_cons, hone, ih (fun u hu => h u (List.mem_cons_of_mem t hu))]
      rfl

/-- Every character of the joined text is the separating space or a
character of one of the tokens. -/
theorem joinSp_chars (L : List (List Char)) :
    ∀ c ∈ joinSp L, c = ' ' ∨ ∃ t ∈ L, c ∈ t := by
  induction L with
  | nil => intro c hc; simp [joinSp] at hc
  | cons w rest ih =>
      cases rest with
      | nil => intro c hc; exact Or.inr ⟨w, List.mem_cons_self _ _, hc⟩
      | cons w2 r2 =>
          intro c hc
          rw [show joinSp (w :: w2 :: r2) = w ++ ' ' :: joinSp (w2 :: r2) from rfl] at hc
          rcases List.mem_append.mp hc with h | h
          · exact Or.inr ⟨w, List.mem_cons_self _ _, h⟩
          · rcases List.mem_cons.mp h with h | h
            · exact Or.inl h
            · rcases ih c h with h2 | ⟨t, ht, hct⟩
              · exact Or.inl h2
              · exact Or.inr ⟨t, List.mem_cons_of_mem w ht, hct⟩

/-- Claim C9.  Tokenizing, joining the tokens with single spaces and
tokenizing again reproduces the token sequence, for every source text. -/
theorem claim_C9_theorem (s : List Char) :
    tokenize (joinSp (tokenize s)) = tokenize s := by
  have hwf : ∀ t ∈ tokenize s, TokenWF t := tokenize_wf s
  cases hL : tokenize s with
  | nil =>
      rw [show joinSp [] = [] from rfl]
      rw [show tokenize [] = [] by rw [tokenize, pySplitLines, splitLinesAux]; rfl]
  | cons t rest =>
      rw [hL] at hwf
      have hnl : ∀ c ∈ joinSp (t :: rest), c ≠ '\n' ∧ c ≠ '\r' := by
        intro c hc
        rcases joinSp_chars _ c hc with h | ⟨u, hu, hcu⟩
        · subst h; exact ⟨by decide, by decide⟩
        · have hcs := ((hwf u hu).2.1 c hcu).1
          constructor <;> (rintro rfl; simp [pyIsSpace] at hcs)
      have hsemi : ∀ c ∈ joinSp (t :: rest), c ≠ ';' := by
        intro c hc
        rcases joinSp_chars _ c hc with h | ⟨u, hu, hcu⟩
        · subst h; decide
        · exact ((hwf u hu).2.1 c hcu).2
      have hne : (joinSp (t :: rest)).isEmpty = false := by
        have htne := (hwf t (List.mem_cons_self _ _)).1
        cases rest with
        | nil =>
            cases ht : t with
            | nil => exact absurd ht htne
            | cons a l => rfl
        | cons w2 r2 => rw [show joinSp (t :: w2 :: r2) = t ++ ' ' :: joinSp (w2 :: r2) from rfl]
                        cases t <;> rfl
      have h1 : pySplitLines (joinSp (t :: rest)) = [joinSp (t :: rest)] := by
        rw [pySplitLines, splitLines_single _ [] hnl]
        simp [hne]
      have h2 : stripComment (joinSp (t :: rest)) = joinSp (t :: rest) :=
        stripComment_id _ hsemi
      have h3 : pySplit (joinSp (t :: rest)) = t :: rest :=
        pySplit_join _ (fun w hw => ⟨(hwf w hw).1, fun c hc => ((hwf w hw).2.1 c hc).1⟩)
      rw [tokenize, h1]
      rw [show ([joinSp (t :: rest)].map stripComment) = [stripComment (joinSp (t :: rest))]
          from rfl]
      rw [h2]
      rw [show ([joinSp (t :: rest)] : List (List Char)).flatMap pySplit
          = pySplit (joinSp (t :: rest)) ++ [] from rfl]
      rw [List.append_nil, h3]
      exact flatMap_scanWord _ hwf

/-! ## The parser

Tokens are strings here, as handed to `parse` by the REPL.  `number_or_symbol`
is modelled for the decimal integer and `digits.digits` float shapes (Python's
`int()`/`float()` accept some further spellings — underscores, exponents —
that no claim depends on; the only control-flow-relevant fact, that exactly
the token `"("` converts to the string `"("`, is preserved).  `parse` runs
the source's three pre-checks and then the recursive descent, which is
fuel-indexed; IndexError models `tokens[index]` running off the end. -/

def splitSign : List Char → Bool × List Char
  | [] => (false, [])
  | c :: r => if c = '+' then (false, r) else if c = '-' then (true, r) else (false, c :: r)

def digitsVal (s : List Char) : Option Nat :=
  if s.isEmpty then none
  else if s.all (fun c => c.isDigit) then
    some (s.foldl (fun acc c => acc * 10 + (c.toNat - 48)) 0)
  else none

/-- Python `int(x)` on token text: optional sign and decimal digits. -/
def parseIntQ (s : List Char) : Option Int :=
  let p := splitSign s
  (digitsVal p.2).map (fun n => if p.1 then -(n : Int) else (n : Int))

/-- Split at the first `'.'`. -/
def splitDot : List Char → Option (List Char × List Char)
  | [] => none
  | c :: r =>
      if c = '.' then some ([], r)
      else (splitDot r).map (fun p => (c :: p.1, p.2))

/-- Python `float(x)` on token text: optional sign, digits around one dot,
at least one digit. -/
def parseFloatQ (s : List Char) : Option ℚ :=
  let p := splitSign s
  match splitDot p.2 with
  | none => none
  | some (ip, fp) =>
      if ip.isEmpty && fp.isEmpty then none
      else if ip.all (fun c => c.isDigit) && fp.all (fun c => c.isDigit) then
        some ((if p.1 then -1 else 1) *
          ((ip.foldl (fun acc c => acc * 10 + (c.toNat - 48)) 0 : ℚ) +
           (fp.foldl (fun acc c => acc * 10 + (c.toNat - 48)) 0 : ℚ) / (10 : ℚ) ^ fp.length))
      else none

/-- `number_or_symbol`: try `int`, then `float`, else keep the string. -/
def numberOrSymbol (s : String) : SExp :=
  match parseIntQ s.toList with
  | some n => .num n
  | none =>
      match parseFloatQ s.toList with
      | some q => .num q
      | none => .sym s

mutual

/-- `parse_expression(index)`: a non-`"("` token is an atom; `"("` collects
sub-expressions until the matching `")"`.  Returns the parsed expression and
the position one past it. -/
def parseExpr (tokens : List String) : Nat → Nat → Except Err (SExp × Nat)
  | 0, _ => .error .noFuel
  | fuel+1, i =>
      match tokens.get? i with
      | none => .error .hostIndex
      | some tk =>
          if beqExp (numberOrSymbol tk) (.sym "(") = false then
            .ok (numberOrSymbol tk, i + 1)
          else if tk.toList.contains ' ' || tk.toList.contains '\n'
              || tk.toList.contains ';' then
            .error .synE  -- dead in the source: the converted token here is "("
          else parseLoop tokens fuel i []
termination_by structural fuel _ => fuel

/-- The `while tokens[index+1] != ')'` loop: parse a sub-expression at
`index+1`, step the cursor back by one, repeat; on `")"` return the collected
sequence and the position two past the current index. -/
def parseLoop (tokens : List String) : Nat → Nat → List SExp → Except Err (SExp × Nat)
  | 0, _, _ => .error .noFuel
  | fuel+1, i, acc =>
      match tokens.get? (i+1) with
      | none => .error .hostIndex
      | some tk =>
          if tk = ")" then .ok (.list acc, i + 2)
          else
            match parseExpr tokens fuel (i+1) with
            | .error e => .error e
            | .ok (sub, j) => parseLoop tokens fuel (j - 1) (acc ++ [sub])
termination_by structural fuel _ _ => fuel

end

/-- `parse(tokens)`: the three pre-checks (note the source's first guard
`'(' and ')' in tokens` short-circuits to `')' in tokens`, and the `or` in
its body evaluates `tokens.index` only when the counts are equal, so the
index calls never fail), then one `parse_expression` from position 0,
discarding trailing tokens. -/
def parse (tokens : List String) : Except Err SExp :=
  if tokens.contains ")" &&
      (decide (tokens.count "(" ≠ tokens.count ")") ||
       decide (tokens.indexOf ")" < tokens.indexOf "(")) then
    .error .synE
  else if (tokens.contains "(" && !tokens.contains ")") ||
      (tokens.contains ")" && !tokens.contains "(") then
    .error .synE
  else if !tokens.contains "(" &&
      (tokens.contains "define" || tokens.contains "lambda") then
    .error .synE
  else
    match parseExpr tokens (2 * tokens.length + 2) 0 with
    | .error e => .error e
    | .ok (parsed, _) => .ok parsed

/-! ## C6: when `parse` fails with a syntax error -/

/-- The claim's error condition: unbalanced parenthesis counts, or a `)`
before the first `(`, or a bare `define`/`lambda` with no parentheses. -/
def parseCond (tokens : List String) : Prop :=
  tokens.count "(" ≠ tokens.count ")" ∨
  (tokens.contains ")" = true ∧ tokens.indexOf ")" < tokens.indexOf "(") ∨
  (tokens.contains "(" = false ∧
    (tokens.contains "define" = true ∨ tokens.contains "lambda" = true))

instance (tokens : List String) : Decidable (parseCond tokens) := by
  unfold parseCond
  infer_instance

/-- Claim C6 (counterexample).  The claim says `parse` never crashes
unclassified; the empty token stream (for which none of the three error
conditions holds) makes `parse_expression(0)` read `tokens[0]` and crash
with a raw IndexError instead. -/
theorem claim_C6_counterexample :
    parse [] = .error .hostIndex ∧
    Err.hostIndex.isSchemeError = false ∧
    Err.hostIndex ≠ Err.synE ∧
    ¬ parseCond [] := by
  refine ⟨rfl, rfl, by decide, by decide⟩

/-- The parenthesis weight of one token. -/
def tokDelta (t : String) : Int :=
  if t = "(" then 1 else if t = ")" then -1 else 0

/-- The parenthesis balance of the first `k` tokens. -/
def balTake (tokens : List String) (k : Nat) : Int :=
  ((tokens.take k).map tokDelta).sum

theorem tokDelta_bounds (t : String) : -1 ≤ tokDelta t ∧ tokDelta t ≤ 1 := by
  unfold tokDelta
  by_cases h1 : t = "("
  · simp [h1]
  · by_cases h2 : t = ")" <;> simp [h1, h2]

theorem closeDelta (t : String) (h : tokDelta t ≤ -1) : t = ")" := by
  unfold tokDelta at h
  by_cases h1 : t = "("
  · rw [if_pos h1] at h; omega
  · rw [if_neg h1] at h
    by_cases h2 : t = ")"
    · exact h2
    · rw [if_neg h2] at h; omega

theorem get?_exists {α : Type} (l : List α) (k : Nat) (h : k < l.length) :
    ∃ t, l.get? k = some t := by
  cases hg : l.get? k with
  | none => rw [List.get?_eq_none] at hg; omega
  | some t => exact ⟨t, rfl⟩

theorem balTake_succ (tokens : List String) (k : Nat) (t : String)
    (h : tokens.get? k = some t) :
    balTake tokens (k+1) = balTake tokens k + tokDelta t := by
  unfold balTake
  rw [List.take_succ]
  rw [List.get?_eq_getElem?] at h
  rw [h]
  simp

theorem balTake_zero (tokens : List String) : balTake tokens 0 = 0 := rfl

/-- The total balance is the count of `(` minus the count of `)`. -/
theorem balTake_counts (tokens : List String) :
    balTake tokens tokens.length
      = (tokens.count "(" : Int) - tokens.count ")" := by
  unfold balTake
  rw [List.take_length]
  induction tokens with
  | nil => rfl
  | cons t rest ih =>
      by_cases h1 : t = "("
      · subst h1
        simp [tokDelta, List.count_cons, ih, beq_iff_eq]
        ring
      · by_cases h2 : t = ")"
        · subst h2
          simp [tokDelta, List.count_cons, ih, beq_iff_eq, h1]
          ring
        · simp [tokDelta, List.count_cons, ih, beq_iff_eq, h1, h2]

/-- `q` closes the group whose scan starts after position `i`: the tokens
strictly between stay at or above the opening balance and return to it at
the `")"` in position `q`. -/
def Matching (tokens : List String) (i q : Nat) : Prop :=
  i + 1 ≤ q ∧ q < tokens.length ∧ tokens.get? q = some ")" ∧
  balTake tokens q = balTake tokens (i+1) ∧
  ∀ r, i + 1 ≤ r → r ≤ q → balTake tokens (i+1) ≤ balTake tokens r

/-- `number_or_symbol` yields the `"("` symbol exactly for the `"("` token. -/
theorem numOrSym_paren (tk : String) :
    beqExp (numberOrSymbol tk) (.sym "(") = true ↔ tk = "(" := by
  constructor
  · intro h
    unfold numberOrSymbol at h
    cases hi : parseIntQ tk.toList with
    | some n => rw [hi] at h; simp [beqExp] at h
    | none =>
        rw [hi] at h
        cases hf : parseFloatQ tk.toList with
        | some q => rw [hf] at h; simp [beqExp] at h
        | none =>
            rw [hf] at h
            simp only [beqExp] at h
            exact beq_iff_eq.mp h
  · intro h
    subst h
    rfl

/-- `tokDelta` of the two parenthesis tokens. -/
theorem tokDelta_open : tokDelta "(" = 1 := by decide

theorem tokDelta_close : tokDelta ")" = -1 := by decide

/-- The recursive descent succeeds on any group with a matching close:
`parseExpr` at an opening parenthesis, and `parseLoop` scanning for the
close, both return the parsed sequence and the position one past the
closing parenthesis, given enough fuel. -/
theorem parseRun (tokens : List String) :
    ∀ fuel : Nat,
      (∀ p q, tokens.get? p = some "(" → Matching tokens p q →
        2*(q-p)+1 ≤ fuel →
        ∃ es, parseExpr tokens fuel p = .ok (.list es, q+1)) ∧
      (∀ i acc q, Matching tokens i q → 2*(q-i) ≤ fuel →
        ∃ es, parseLoop tokens fuel i acc = .ok (.list (acc ++ es), q+1)) := by
  intro fuel
  induction fuel using Nat.strong_induction_on with
  | _ fuel ih =>
  constructor
  · -- parseExpr at "("
    intro p q hp hm hfuel
    obtain ⟨f, rfl⟩ : ∃ f, fuel = f + 1 := ⟨fuel - 1, by omega⟩
    have hbq : beqExp (numberOrSymbol "(") (.sym "(") = true := by decide
    have hfclose : 2*(q-p) ≤ f := by
      have := hm.1
      omega
    obtain ⟨es, hes⟩ := (ih f (by omega)).2 p [] q hm hfclose
    refine ⟨es, ?_⟩
    simp only [parseExpr, hp, hbq]
    norm_num
    rw [hes]
    simp
  · -- parseLoop scanning for the close at q
    intro i acc q hm hfuel
    obtain ⟨hiq, hqlen, hq, hbal, hpre⟩ := hm
    obtain ⟨f, rfl⟩ : ∃ f, fuel = f + 1 := ⟨fuel - 1, by omega⟩
    have hi1len : i + 1 < tokens.length := by omega
    obtain ⟨tk, htk⟩ := get?_exists tokens (i+1) hi1len
    by_cases hclose : tk = ")"
    · -- the very next token closes the group: q = i+1
      subst hclose
      have hq1 : q = i + 1 := by
        by_contra hne
        have hstep := balTake_succ tokens (i+1) ")" htk
        rw [tokDelta_close] at hstep
        have := hpre (i+1+1) (by omega) (by omega)
        omega
      refine ⟨[], ?_⟩
      simp only [parseLoop, htk, List.append_nil, hq1]
      norm_num
    · -- a sub-expression starts at i+1
      have hq2 : i + 2 ≤ q := by
        rcases Nat.eq_or_lt_of_le hiq with h | h
        · rw [← h] at hq
          rw [htk] at hq
          exact absurd (Option.some.inj hq) hclose
        · omega
      by_cases hopen : tk = "("
      · -- a nested group: find its minimal close q' = m₀ - 1
        subst hopen
        have hstep1 := balTake_succ tokens (i+1) "(" htk
        rw [tokDelta_open] at hstep1
        have hexm : ∃ m, i + 2 ≤ m ∧ m ≤ q ∧ balTake tokens m = balTake tokens (i+1) :=
          ⟨q, hq2, le_refl q, hbal⟩
        obtain ⟨m0, hm1, hm2, hm3, hmin'⟩ :
            ∃ m0, i + 2 ≤ m0 ∧ m0 ≤ q ∧ balTake tokens m0 = balTake tokens (i+1) ∧
              ∀ r, i + 2 ≤ r → r ≤ q → balTake tokens r = balTake tokens (i+1) →
                m0 ≤ r := by
          refine ⟨Nat.find hexm, (Nat.find_spec hexm).1, (Nat.find_spec hexm).2.1,
                  (Nat.find_spec hexm).2.2, ?_⟩
          intro r h1 h2 h3
          exact Nat.find_min' hexm ⟨h1, h2, h3⟩
        clear hexm
        have hstep1' : balTake tokens (i+2) = balTake tokens (i+1) + 1 := hstep1
        have hmin : ∀ r, i + 2 ≤ r → r < m0 →
            balTake tokens (i+1) + 1 ≤ balTake tokens r := by
          intro r hr1 hr2
          have hr3 : r ≤ q := by omega
          have hge := hpre r (by omega) hr3
          have hneq : balTake tokens r ≠ balTake tokens (i+1) := by
            intro heq
            have := hmin' r hr1 hr3 heq
            omega
          omega
        have hm03 : i + 3 ≤ m0 := by
          rcases Nat.lt_or_ge m0 (i+3) with h | h
          · have he2 : m0 = i + 2 := by omega
            rw [he2] at hm3
            omega
          · exact h
        have hq'len : m0 - 1 < tokens.length := by omega
        obtain ⟨tq, htq⟩ := get?_exists tokens (m0 - 1) hq'len
        have hstepq := balTake_succ tokens (m0 - 1) tq htq
        have hq'1 : m0 - 1 + 1 = m0 := by omega
        have hbridge : balTake tokens (m0 - 1 + 1) = balTake tokens m0 := by rw [hq'1]
        rw [hbridge] at hstepq
        have hbalq' := hmin (m0 - 1) (by omega) (by omega)
        have hδb := tokDelta_bounds tq
        have hδ : tokDelta tq ≤ -1 := by omega
        have htqc : tq = ")" := closeDelta tq hδ
        have hδval : tokDelta tq = -1 := by rw [htqc]; exact tokDelta_close
        have hbexact : balTake tokens (m0 - 1) = balTake tokens (i+1) + 1 := by
          omega
        have hmInner : Matching tokens (i+1) (m0 - 1) := by
          refine ⟨by omega, by omega, by rw [htq, htqc], by omega, ?_⟩
          intro r hr1 hr2
          have := hmin r (by omega) (by omega)
          omega
        obtain ⟨es', hes'⟩ := (ih f (by omega)).1 (i+1) (m0 - 1)
          htk hmInner (by omega)
        have hmAfter : Matching tokens (m0 - 1) q := by
          refine ⟨by omega, hqlen, hq, by rw [hbridge]; omega, ?_⟩
          intro r hr1 hr2
          have := hpre r (by omega) hr2
          rw [hbridge]
          omega
        obtain ⟨es'', hes''⟩ := (ih f (by omega)).2 (m0 - 1)
          (acc ++ [.list es']) q hmAfter (by omega)
        refine ⟨.list es' :: es'', ?_⟩
        simp only [parseLoop, htk, if_neg hclose, hes']
        have hj : m0 - 1 + 1 - 1 = m0 - 1 := by omega
        rw [hj, hes'']
        simp
      · -- an atom at i+1
        have hδ0 : tokDelta tk = 0 := by
          unfold tokDelta
          rw [if_neg hopen, if_neg hclose]
        have hstep1 := balTake_succ tokens (i+1) tk htk
        rw [hδ0] at hstep1
        have hmAfter : Matching tokens (i+1) q := by
          refine ⟨by omega, hqlen, hq, by omega, ?_⟩
          intro r hr1 hr2
          have := hpre r (by omega) hr2
          omega
        have hbq : beqExp (numberOrSymbol tk) (.sym "(") = false := by
          rcases hb : beqExp (numberOrSymbol tk) (.sym "(") with _ | _
          · rfl
          · exact absurd ((numOrSym_paren tk).mp hb) hopen
        have hexpr : parseExpr tokens f (i+1) = .ok (numberOrSymbol tk, i+2) := by
          obtain ⟨f2, rfl⟩ : ∃ f2, f = f2 + 1 := ⟨f - 1, by omega⟩
          simp only [parseExpr, htk, hbq]
          norm_num
        obtain ⟨es'', hes''⟩ := (ih f (by omega)).2 (i+1)
          (acc ++ [numberOrSymbol tk]) q hmAfter (by omega)
        refine ⟨numberOrSymbol tk :: es'', ?_⟩
        simp only [parseLoop, htk, if_neg hclose, hexpr]
        have hj : i + 2 - 1 = i + 1 := by omega
        rw [hj, hes'']
        simp

/-- A stream that starts with `"("` and whose total balance is zero contains
a matching close for that first token. -/
theorem topMatching (tokens : List String)
    (h0 : tokens.get? 0 = some "(")
    (htot : balTake tokens tokens.length = 0) :
    ∃ q, Matching tokens 0 q := by
  have hlen0 : 0 < tokens.length := by
    by_contra hc
    have hnone : tokens.get? 0 = none := List.get?_eq_none.mpr (by omega)
    rw [hnone] at h0
    cases h0
  have hb1 : balTake tokens 1 = 1 := by
    have h := balTake_succ tokens 0 "(" h0
    rw [tokDelta_open, balTake_zero] at h
    simpa using h
  have hlen2 : 2 ≤ tokens.length := by
    by_contra hc
    have h1 : tokens.length = 1 := by omega
    rw [h1] at htot
    omega
  have hex : ∃ m, 2 ≤ m ∧ m ≤ tokens.length ∧ balTake tokens m = 0 :=
    ⟨tokens.length, hlen2, le_refl _, htot⟩
  obtain ⟨m0, hm1, hm2, hm3, hmin'⟩ :
      ∃ m0, 2 ≤ m0 ∧ m0 ≤ tokens.length ∧ balTake tokens m0 = 0 ∧
        ∀ r, 2 ≤ r → r ≤ tokens.length → balTake tokens r = 0 → m0 ≤ r := by
    refine ⟨Nat.find hex, (Nat.find_spec hex).1, (Nat.find_spec hex).2.1,
            (Nat.find_spec hex).2.2, ?_⟩
    intro r h1 h2 h3
    exact Nat.find_min' hex ⟨h1, h2, h3⟩
  clear hex
  have hpos : ∀ r, 1 ≤ r → r < m0 → 1 ≤ balTake tokens r := by
    intro r
    induction r with
    | zero => intro h _; omega
    | succ n ihn =>
        intro _ h2
        rcases Nat.eq_zero_or_pos n with hn | hn
        · subst hn
          simp only [Nat.zero_add]
          omega
        · have hprev := ihn (by omega) (by omega)
          have hnlen : n < tokens.length := by omega
          obtain ⟨t, ht⟩ := get?_exists tokens n hnlen
          have hstep := balTake_succ tokens n t ht
          have hδ := tokDelta_bounds t
          have hne : balTake tokens (n+1) ≠ 0 := by
            intro heq
            have := hmin' (n+1) (by omega) (by omega) heq
            omega
          omega
  have hq'len : m0 - 1 < tokens.length := by omega
  obtain ⟨tq, htq⟩ := get?_exists tokens (m0-1) hq'len
  have hstepq := balTake_succ tokens (m0-1) tq htq
  have hbridge : balTake tokens (m0 - 1 + 1) = balTake tokens m0 := by
    have h : m0 - 1 + 1 = m0 := by omega
    rw [h]
  rw [hbridge] at hstepq
  have hprev := hpos (m0-1) (by omega) (by omega)
  have hδb := tokDelta_bounds tq
  have hδ : tokDelta tq ≤ -1 := by omega
  have htqc : tq = ")" := closeDelta tq hδ
  have hδval : tokDelta tq = -1 := by rw [htqc]; exact tokDelta_close
  have hbexact : balTake tokens (m0-1) = 1 := by omega
  refine ⟨m0 - 1, by omega, hq'len, by rw [htq, htqc], ?_, ?_⟩
  · simp only [Nat.zero_add]
    rw [hbexact, hb1]
  · intro r hr1 hr2
    simp only [Nat.zero_add] at hr1 ⊢
    have := hpos r hr1 (by omega)
    omega

theorem contains_mem (l : List String) (a : String) :
    l.contains a = true ↔ a ∈ l :=
  List.elem_iff

/-- Each of the three claim conditions trips one of the source's pre-checks,
so `parse` returns the classified syntax error. -/
theorem parse_synE (tokens : List String) (h : parseCond tokens) :
    parse tokens = .error .synE := by
  unfold parse
  split_ifs with h1 h2 h3
  · rfl
  · rfl
  · rfl
  · exfalso
    simp only [Bool.and_eq_true, Bool.or_eq_true, Bool.not_eq_true',
      decide_eq_true_eq, not_and, not_or, ne_eq, not_not] at h1 h2 h3
    rcases h with hA | ⟨hB1, hB2⟩ | ⟨hC1, hC2⟩
    · by_cases hct : tokens.contains ")" = true
      · exact hA (h1 hct).1
      · have hctf : tokens.contains ")" = false := by
          rcases hb : tokens.contains ")" with _ | _
          · rfl
          · exact absurd hb hct
        have hz : tokens.count ")" = 0 :=
          List.count_eq_zero.mpr (fun hm => hct ((contains_mem tokens ")").mpr hm))
        have hcpos : 0 < tokens.count "(" := by omega
        have hopen : "(" ∈ tokens := List.count_pos_iff.mp hcpos
        exact (h2.1 ((contains_mem tokens "(").mpr hopen)) hctf
    · exact (h1 hB1).2 hB2
    · rcases hC2 with hd | hl
      · exact (h3 hC1).1 hd
      · exact (h3 hC1).2 hl

/-- When none of the claim conditions holds and the stream is nonempty,
every pre-check passes and `parse_expression(0)` succeeds, so `parse`
returns a parsed expression. -/
theorem parse_ok (tokens : List String) (hne : tokens ≠ [])
    (h : ¬ parseCond tokens) : ∃ e, parse tokens = .ok e := by
  unfold parseCond at h
  push_neg at h
  obtain ⟨hA, hB, hC⟩ := h
  have hcount_zero : ∀ a : String, tokens.contains a = false → tokens.count a = 0 := by
    intro a ha
    refine List.count_eq_zero.mpr (fun hm => ?_)
    rw [(contains_mem tokens a).mpr hm] at ha
    cases ha
  have hcount_pos : ∀ a : String, tokens.contains a = true → 0 < tokens.count a := by
    intro a ha
    exact List.count_pos_iff.mpr ((contains_mem tokens a).mp ha)
  have hG1 : (tokens.contains ")" &&
      (decide (tokens.count "(" ≠ tokens.count ")") ||
       decide (tokens.indexOf ")" < tokens.indexOf "("))) = false := by
    rcases hct : tokens.contains ")" with _ | _
    · rfl
    · have hidx := hB hct
      have h1 : decide (tokens.count "(" ≠ tokens.count ")") = false :=
        decide_eq_false (by omega)
      have h2 : decide (tokens.indexOf ")" < tokens.indexOf "(") = false :=
        decide_eq_false (by omega)
      rw [h1, h2]
      rfl
  have hiff : tokens.contains "(" = tokens.contains ")" := by
    rcases ho : tokens.contains "(" with _ | _ <;>
      rcases hc : tokens.contains ")" with _ | _
    · rfl
    · have := hcount_zero "(" ho
      have := hcount_pos ")" hc
      omega
    · have := hcount_pos "(" ho
      have := hcount_zero ")" hc
      omega
    · rfl
  have hG2 : ((tokens.contains "(" && !tokens.contains ")") ||
      (tokens.contains ")" && !tokens.contains "(")) = false := by
    rw [hiff]
    rcases hc : tokens.contains ")" with _ | _ <;> rfl
  have hG3 : (!tokens.contains "(" &&
      (tokens.contains "define" || tokens.contains "lambda")) = false := by
    rcases ho : tokens.contains "(" with _ | _
    · have hd : tokens.contains "define" = false := by
        rcases hb : tokens.contains "define" with _ | _
        · rfl
        · exact absurd hb (hC ho).1
      have hl : tokens.contains "lambda" = false := by
        rcases hb : tokens.contains "lambda" with _ | _
        · rfl
        · exact absurd hb (hC ho).2
      rw [hd, hl]
      rfl
    · rfl
  have hlen0 : 0 < tokens.length := by
    cases tokens with
    | nil => exact absurd rfl hne
    | cons a l => simp
  obtain ⟨t0, ht0⟩ := get?_exists tokens 0 hlen0
  have hsucc : ∃ p j, parseExpr tokens (2 * tokens.length + 2) 0 = .ok (p, j) := by
    by_cases hb : beqExp (numberOrSymbol t0) (.sym "(") = false
    · refine ⟨numberOrSymbol t0, 1, ?_⟩
      obtain ⟨g, hg⟩ : ∃ g, 2 * tokens.length + 2 = g + 1 :=
        ⟨2 * tokens.length + 1, rfl⟩
      rw [hg]
      simp only [parseExpr, ht0, hb]
      norm_num
    · have hb' : beqExp (numberOrSymbol t0) (.sym "(") = true := by
        rcases hx : beqExp (numberOrSymbol t0) (.sym "(") with _ | _
        · exact absurd hx hb
        · rfl
      have ht0p : t0 = "(" := (numOrSym_paren t0).mp hb'
      subst ht0p
      have htot : balTake tokens tokens.length = 0 := by
        rw [balTake_counts]
        omega
      obtain ⟨q, hq⟩ := topMatching tokens ht0 htot
      have hqlen : q < tokens.length := hq.2.1
      obtain ⟨es, hes⟩ :=
        (parseRun tokens (2 * tokens.length + 2)).1 0 q ht0 hq (by omega)
      exact ⟨.list es, q + 1, hes⟩
  obtain ⟨p, j, hpe⟩ := hsucc
  refine ⟨p, ?_⟩
  unfold parse
  rw [hG1, hG2, hG3]
  simp only [Bool.false_eq_true, if_false, hpe]

/-- Claim C6 (amended).  For every NONEMPTY token stream, `parse` fails with
a syntax error exactly when the counts of `(` and `)` differ, or a `)` occurs
before the first `(`, or a bare `define`/`lambda` appears with no parentheses
at all; otherwise it returns a parsed expression without crashing.  (The
empty stream is the exception the original claim misses: none of the
conditions holds, yet `parse` crashes with a raw host IndexError.) -/
theorem claim_C6_amended (tokens : List String) (hne : tokens ≠ []) :
    ((parse tokens = .error .synE) ↔ parseCond tokens) ∧
    (¬ parseCond tokens → ∃ e, parse tokens = .ok e) := by
  constructor
  · constructor
    · intro hp
      by_contra hc
      obtain ⟨e, he⟩ := parse_ok tokens hne hc
      rw [he] at hp
      cases hp
    · exact parse_synE tokens
  · exact parse_ok tokens hne

/-- Witness for C6: the singleton stream `a` parses successfully, and the
unbalanced stream `) (` is a syntax error. -/
theorem claim_C6_witness :
    ((parse ["a"] = .error .synE ↔ parseCond ["a"]) ∧
     (¬ parseCond ["a"] → ∃ e, parse ["a"] = .ok e)) ∧
    ((parse [")", "("] = .error .synE ↔ parseCond [")", "("]) ∧
     (¬ parseCond [")", "("] → ∃ e, parse [")", "("] = .ok e)) :=
  ⟨claim_C6_amended ["a"] (by decide),
   claim_C6_amended [")", "("] (by decide)⟩
